import Mathlib

/-!
# Verification of the cobblesDB SSTable builder and iterator

A shallow embedding of `src/mini-lsm-starter/src/table/builder.rs`
(`SsTableBuilder`) and `src/mini-lsm-starter/src/table/iterator.rs`
(`SsTableIterator`), together with models of the external collaborators
(block codec, bloom filter, block metadata, table read view) that the
repository consumes but whose sources are not part of this crate's
`table/builder.rs` / `table/iterator.rs` files.

Keys and values are byte sequences, modelled as `List Nat`; keys are
compared lexicographically (Mathlib's linear order on lists).
Machine integers are modelled as `Nat` with explicit wrap-around
(`% 2 ^ 32`, `% 2 ^ 64`) where the source's fixed-width arithmetic
matters.  Rust panics (`assert!`, `unwrap()`) are modelled by `Option`:
`none` is a panic, `some` a normal return.
-/

namespace CobblesDB

/-- Keys are opaque byte sequences, ordered lexicographically. -/
abbrev Key := List Nat

/-- Values are opaque byte sequences. -/
abbrev Value := List Nat

/-- The exclusive bound of Rust's `usize` (64-bit platform). -/
def usizeBound : Nat := 2 ^ 64

/-- Model of `bytes::BufMut::put_u32`: append a 32-bit integer as four
big-endian bytes (the value is implicitly truncated to 32 bits, as by
`as u32` in the source). -/
def putU32 (n : Nat) : List Nat :=
  [n / 2 ^ 24 % 256, n / 2 ^ 16 % 256, n / 2 ^ 8 % 256, n % 256]

/-- Modelled from the spec: the `xxhash_rust::xxh32` checksum used by the
source is an external crate; the spec requires only "a 32-bit
non-cryptographic hash seeded with a fixed constant".  Modelled as a
fixed-width 32-bit fold over the bytes. -/
def xxh32 (seed : Nat) (bytes : List Nat) : Nat :=
  bytes.foldl (fun acc b => (acc * 31 + b % 256 + 1) % 2 ^ 32) (seed % 2 ^ 32)

/-- The 32-bit key hash recorded by `SsTableBuilder::add` (xxh32 with
seed 0 over the key bytes). -/
def keyHash (k : Key) : Nat := xxh32 0 k

/-- Modelled from the spec: the block codec's per-entry byte cost (the
block module is not among the given sources).  Each entry is stored
length-prefixed: one length byte for the key, the key bytes, one length
byte for the value, the value bytes. -/
def entrySize (k : Key) (v : Value) : Nat := k.length + v.length + 2

/-- Modelled from the spec: a block is "a contiguous, size-bounded run
of sorted key/value pairs". -/
structure Block where
  entries : List (Key × Value)
deriving DecidableEq

/-- Modelled from the spec: the block codec "encodes one bounded run of
sorted entries into a contiguous byte buffer"; entries are stored
length-prefixed, in order. -/
def Block.encode (b : Block) : List Nat :=
  b.entries.flatMap fun e => e.1.length :: e.1 ++ e.2.length :: e.2

/-- Modelled from the spec: `crate::block::BlockBuilder`, the open block
being filled by the table builder. -/
structure BlockBuilder where
  block_size : Nat
  entries : List (Key × Value)
deriving DecidableEq

/-- Modelled from the spec: an empty block builder with the given target
block byte budget. -/
def BlockBuilder.new (block_size : Nat) : BlockBuilder :=
  ⟨block_size, []⟩

/-- Bytes currently occupied by the open block's entries. -/
def BlockBuilder.currentSize (b : BlockBuilder) : Nat :=
  (b.entries.map fun e => entrySize e.1 e.2).sum

/-- Modelled from the spec: `BlockBuilder::add(key, value) -> bool`
"returns false once accepting would exceed the target block byte
budget"; on success the entry is appended.  Returns the flag together
with the (possibly updated) builder. -/
def BlockBuilder.add (b : BlockBuilder) (k : Key) (v : Value) : Bool × BlockBuilder :=
  if b.currentSize + entrySize k v ≤ b.block_size then
    (true, ⟨b.block_size, b.entries ++ [(k, v)]⟩)
  else
    (false, b)

/-- Modelled from the spec: `BlockBuilder::build` yields the immutable
finished block. -/
def BlockBuilder.build (b : BlockBuilder) : Block :=
  ⟨b.entries⟩

/-- Modelled from the spec: `crate::block::BlockIterator`, a cursor
inside one decoded block. -/
structure BlockIterator where
  block : Block
  idx : Nat
deriving DecidableEq

/-- Modelled from the spec: position the cursor at the block's first
entry. -/
def BlockIterator.create_and_seek_to_first (b : Block) : BlockIterator :=
  ⟨b, 0⟩

/-- Modelled from the spec: position the cursor at the first entry whose
key is `≥ key` (`List.findIdx` returns the entry count, i.e. an invalid
position, when no such entry exists). -/
def BlockIterator.create_and_seek_to_key (b : Block) (key : Key) : BlockIterator :=
  ⟨b, b.entries.findIdx fun e => decide (key ≤ e.1)⟩

/-- Modelled from the spec: the cursor is valid while it sits on an
entry. -/
def BlockIterator.is_valid (it : BlockIterator) : Bool :=
  decide (it.idx < it.block.entries.length)

/-- Key under the cursor (meaningful only while valid). -/
def BlockIterator.key (it : BlockIterator) : Key :=
  ((it.block.entries[it.idx]?).map Prod.fst).getD []

/-- Value under the cursor (meaningful only while valid). -/
def BlockIterator.value (it : BlockIterator) : Value :=
  ((it.block.entries[it.idx]?).map Prod.snd).getD []

/-- Modelled from the spec: advance the cursor one entry. -/
def BlockIterator.next (it : BlockIterator) : BlockIterator :=
  ⟨it.block, it.idx + 1⟩

/-- Modelled from the spec: the sparse-index entry
`{byte offset of block start, first key, last key}` (`super::BlockMeta`,
whose source file is not among the given sources). -/
structure BlockMeta where
  offset : Nat
  first_key : Key
  last_key : Key
deriving DecidableEq

/-- Modelled from the spec: `BlockMeta::encode_block_meta` appends, for
each entry, "offset + first-key bytes (length-prefixed) + last-key bytes
(length-prefixed)". -/
def BlockMeta.encode_block_meta (metas : List BlockMeta) : List Nat :=
  metas.flatMap fun m =>
    putU32 m.offset ++ m.first_key.length :: m.first_key ++ m.last_key.length :: m.last_key

/-- Modelled from the spec: the bloom filter is a "fixed-size bit array
plus derived probe count". -/
structure Bloom where
  filter : List Bool
  k : Nat
deriving DecidableEq

/-- Modelled from the spec: `Bloom::bloom_bits_per_key` "computes bits
per key from the target false-positive rate alone (standard formula:
bits ≈ −ln(fp)/ln(2)²)".  The real-valued logarithm is outside the
executable model; at the module's fixed 1% target the formula rounds up
to 10 bits per key, and the builder only ever calls this function with
that target, so it is modelled as that constant. -/
def Bloom.bloom_bits_per_key (entries : Nat) (fp : ℚ) : Nat := 10

/-- Modelled from the spec: `Bloom::build_from_key_hashes` allocates a
bit array sized to `bits_per_key × |hashes|` (rounded to a byte-aligned
size, with a small floor) and a derived probe count `k ≈ bits_per_key ×
ln 2`; each 32-bit hash is folded into `k` positions by double hashing
(a 15-bit rotation as the delta) and those bits are set. -/
def Bloom.build_from_key_hashes (keys : List Nat) (bits_per_key : Nat) : Bloom :=
  let k := min 30 (max 1 (bits_per_key * 69 / 100))
  let nbits0 := max 64 (keys.length * bits_per_key)
  let nbytes := (nbits0 + 7) / 8
  let nbits := nbytes * 8
  let filter := keys.foldl
    (fun filter h0 =>
      let delta := (h0 * 2 ^ 15) % 2 ^ 32 + h0 / 2 ^ 17
      (List.range k).foldl
        (fun filter i => filter.set ((h0 + i * delta) % 2 ^ 32 % nbits) true)
        filter)
    (List.replicate nbits false)
  ⟨filter, k⟩

/-- Pack a bit list into bytes, eight bits per byte, low bit first. -/
def bitsToBytes : List Bool → List Nat
  | [] => []
  | b :: rest =>
    ((b :: rest.take 7).foldr (fun bit acc => acc * 2 + cond bit 1 0) 0) :: bitsToBytes (rest.drop 7)
termination_by l => l.length
decreasing_by
  simp only [List.length_cons, List.length_drop]
  omega

/-- Modelled from the spec: the bloom filter "encodes to a byte buffer
carrying the probe count and raw bits". -/
def Bloom.encode (b : Bloom) : List Nat :=
  bitsToBytes b.filter ++ [b.k]

/-- Structure `SsTableBuilder` from `table/builder.rs`.  The `blocks` field is the
decoded view of the finalized blocks appended to `data`; it models the
persisted block bytes as later served back, decoded, by the read side's
`read_block_cached` (file storage and the block cache are external
collaborators). -/
structure SsTableBuilder where
  builder : BlockBuilder
  first_key : Key
  last_key : Key
  data : List Nat
  meta : List BlockMeta
  block_size : Nat
  key_hashes : List Nat
  max_ts : Nat
  blocks : List Block
deriving DecidableEq

/-- Source `SsTableBuilder::new`: an empty builder targeting the given block
size. -/
def SsTableBuilder.new (block_size : Nat) : SsTableBuilder :=
  { data := []
    meta := []
    first_key := []
    last_key := []
    block_size := block_size
    builder := BlockBuilder.new block_size
    key_hashes := []
    max_ts := 0
    blocks := [] }

/-- Source `SsTableBuilder::finish_block`: swap the open block builder for a
fresh one, encode the finished block, append a `BlockMeta` entry whose
offset is the current data length (taking the tracked first/last keys
and resetting them, as `std::mem::take` does), checksum the encoded
block, and append the block bytes then the 4-byte checksum to the data
buffer. -/
def SsTableBuilder.finish_block (s : SsTableBuilder) : SsTableBuilder :=
  let builder := s.builder
  let encoded_block := (BlockBuilder.build builder).encode
  let checksum := xxh32 0 encoded_block
  { s with
    builder := BlockBuilder.new s.block_size
    first_key := []
    last_key := []
    meta := s.meta ++ [⟨s.data.length, s.first_key, s.last_key⟩]
    data := s.data ++ encoded_block ++ putU32 checksum
    blocks := s.blocks ++ [BlockBuilder.build builder] }

/-- Source `SsTableBuilder::add`.  The source derives the timestamp from the
system clock inside `add`; the clock reading is modelled as the explicit
input `ts`.  The source's `assert!(self.builder.add(key, value))` on the
retry path is a panic when the retry fails, modelled as `none`. -/
def SsTableBuilder.add (s : SsTableBuilder) (key : Key) (value : Value) (ts : Nat) :
    Option SsTableBuilder :=
  let s1 := if s.first_key.isEmpty then { s with first_key := key } else s
  let s2 := if s1.max_ts < ts then { s1 with max_ts := ts } else s1
  let s3 := { s2 with key_hashes := s2.key_hashes ++ [keyHash key] }
  let r := s3.builder.add key value
  let s4 :=
    if r.1 then
      some { s3 with builder := r.2 }
    else
      let f := s3.finish_block
      let r2 := f.builder.add key value
      if r2.1 then some { f with builder := r2.2, first_key := key } else none
  s4.map fun s5 => { s5 with last_key := key }

/-- Source `SsTableBuilder::estimated_size`: the length of the encoded data
buffer. -/
def SsTableBuilder.estimated_size (s : SsTableBuilder) : Nat :=
  s.data.length

/-- The table read view (`super::SsTable`, whose source file is not
among the given sources; fields modelled from the spec's "Table (read
view)": id, handle to the persisted bytes, BlockMeta sequence, bloom
filter, min/max key, version watermark).  `blocks` is the decoded view
of the persisted blocks as served by `read_block_cached`. -/
structure SsTable where
  id : Nat
  file : List Nat
  blocks : List Block
  block_meta : List BlockMeta
  block_meta_offset : Nat
  bloom : Option Bloom
  first_key : Key
  last_key : Key
  max_ts : Nat
deriving DecidableEq

/-- Modelled from the spec: `SsTable::num_of_blocks` is the length of
the BlockMeta sequence. -/
def SsTable.num_of_blocks (t : SsTable) : Nat :=
  t.block_meta.length

/-- Modelled from the spec: `SsTable::find_block_idx` finds "the
rightmost entry whose first key ≤ key (clamped to block 0 if key
precedes every block)" in the BlockMeta first-key column (the binary
search is modelled as the equivalent partition point; `Nat` subtraction
clamps at 0). -/
def SsTable.find_block_idx (t : SsTable) (key : Key) : Nat :=
  (t.block_meta.takeWhile fun m => decide (m.first_key ≤ key)).length - 1

/-- Modelled from the spec: `SsTable::read_block_cached` reads the
block's byte range, verifies its checksum and decodes it; modelled as
returning the decoded block at that index (`none` is a read/corruption
error, e.g. an out-of-range block index). -/
def SsTable.read_block_cached (t : SsTable) (idx : Nat) : Option Block :=
  t.blocks[idx]?

/-- Source `SsTableBuilder::build`: finalize the open block, append the encoded
BlockMeta section and its offset, the encoded bloom filter (built over
every recorded key hash at the 1% false-positive target) and its offset,
then a checksum over the whole buffer; return the read view.  The
source's `self.meta.first().unwrap()` / `self.meta.last().unwrap()` are
modelled by the `match` (`none` would be the panic); `FileObject::create`
is an external collaborator whose success is modelled by storing the
buffer in `file`. -/
def SsTableBuilder.build (s0 : SsTableBuilder) (id : Nat) : Option SsTable :=
  let s := s0.finish_block
  let buf0 := s.data
  let meta_offset := buf0.length
  let buf1 := buf0 ++ BlockMeta.encode_block_meta s.meta
  let buf2 := buf1 ++ putU32 meta_offset
  let bloom := Bloom.build_from_key_hashes s.key_hashes
    (Bloom.bloom_bits_per_key s.key_hashes.length (1 / 100))
  let bloom_offset := buf2.length
  let buf3 := buf2 ++ bloom.encode
  let buf4 := buf3 ++ putU32 bloom_offset
  let checksum := xxh32 0 buf4
  let buf5 := buf4 ++ putU32 checksum
  match s.meta.head?, s.meta.getLast? with
  | some m0, some mL =>
    some
      { id := id
        file := buf5
        blocks := s.blocks
        block_meta := s.meta
        block_meta_offset := meta_offset
        bloom := some bloom
        first_key := m0.first_key
        last_key := mL.last_key
        max_ts := s.max_ts }
  | _, _ => none

/-- Structure `SsTableIterator` from `table/iterator.rs`: the table, the current
block cursor, and the current block index. -/
structure SsTableIterator where
  table : SsTable
  blk_iter : BlockIterator
  blk_idx : Nat
deriving DecidableEq

/-- Source `SsTableIterator::initialize_first_block`: read block 0 and place a
cursor at its first entry. -/
def SsTableIterator.initialize_first_block (table : SsTable) :
    Option (Nat × BlockIterator) :=
  (table.read_block_cached 0).map fun block =>
    (0, BlockIterator.create_and_seek_to_first block)

/-- Source `SsTableIterator::create_and_seek_to_first`. -/
def SsTableIterator.create_and_seek_to_first (table : SsTable) :
    Option SsTableIterator :=
  (SsTableIterator.initialize_first_block table).map fun p =>
    { table := table, blk_iter := p.2, blk_idx := p.1 }

/-- Source `SsTableIterator::seek_to_first`. -/
def SsTableIterator.seek_to_first (s : SsTableIterator) : Option SsTableIterator :=
  (SsTableIterator.initialize_first_block s.table).map fun p =>
    { s with blk_idx := p.1, blk_iter := p.2 }

/-- Source `SsTableIterator::initialize_key_block`: locate the candidate block,
seek inside it; if the cursor lands past the block's entries, advance
the block index (guarded by `checked_add`, whose overflow surfaces as an
error, i.e. `none`) and seek the next block to its first entry if it
exists. -/
def SsTableIterator.initialize_key_block (table : SsTable) (key : Key) :
    Option (Nat × BlockIterator) :=
  let blk_idx := table.find_block_idx key
  (table.read_block_cached blk_idx).bind fun block =>
    let blk_iter := BlockIterator.create_and_seek_to_key block key
    if blk_iter.is_valid then
      some (blk_idx, blk_iter)
    else
      if blk_idx + 1 < usizeBound then
        let blk_idx2 := blk_idx + 1
        if blk_idx2 < table.num_of_blocks then
          (table.read_block_cached blk_idx2).map fun next_block =>
            (blk_idx2, BlockIterator.create_and_seek_to_first next_block)
        else
          some (blk_idx2, blk_iter)
      else
        none

/-- Source `SsTableIterator::create_and_seek_to_key`. -/
def SsTableIterator.create_and_seek_to_key (table : SsTable) (key : Key) :
    Option SsTableIterator :=
  (SsTableIterator.initialize_key_block table key).map fun p =>
    { table := table, blk_iter := p.2, blk_idx := p.1 }

/-- Source `SsTableIterator::seek_to_key`. -/
def SsTableIterator.seek_to_key (s : SsTableIterator) (key : Key) :
    Option SsTableIterator :=
  (SsTableIterator.initialize_key_block s.table key).map fun p =>
    { s with blk_idx := p.1, blk_iter := p.2 }

/-- Source `StorageIterator::key` for the table iterator. -/
def SsTableIterator.key (s : SsTableIterator) : Key :=
  s.blk_iter.key

/-- Source `StorageIterator::value` for the table iterator. -/
def SsTableIterator.value (s : SsTableIterator) : Value :=
  s.blk_iter.value

/-- Source `StorageIterator::is_valid` for the table iterator. -/
def SsTableIterator.is_valid (s : SsTableIterator) : Bool :=
  s.blk_iter.is_valid

/-- Source `StorageIterator::next` for the table iterator: advance the cursor;
if it becomes invalid, increment the block index (the source's plain
`+= 1`, i.e. wrapping `usize` arithmetic, modelled by `% 2 ^ 64`) and,
if a block with that index exists, seek it to its first entry. -/
def SsTableIterator.next (s : SsTableIterator) : Option SsTableIterator :=
  let blk_iter := s.blk_iter.next
  if blk_iter.is_valid then
    some { s with blk_iter := blk_iter }
  else
    let blk_idx := (s.blk_idx + 1) % usizeBound
    if blk_idx < s.table.num_of_blocks then
      (s.table.read_block_cached blk_idx).map fun b =>
        { s with blk_idx := blk_idx, blk_iter := BlockIterator.create_and_seek_to_first b }
    else
      some { s with blk_idx := blk_idx, blk_iter := blk_iter }

/-! ## Derived observations used to state the claims -/

/-- Feed a sequence of entries (each with its clock reading) to the
builder; `none` as soon as one `add` panics. -/
def SsTableBuilder.addAll (s : SsTableBuilder) :
    List ((Key × Value) × Nat) → Option SsTableBuilder
  | [] => some s
  | e :: rest => (s.add e.1.1 e.1.2 e.2).bind fun s' => s'.addAll rest

/-- All entries held by the builder, finalized blocks first, then the
open block, in insertion order. -/
def SsTableBuilder.allEntries (s : SsTableBuilder) : List (Key × Value) :=
  (s.blocks.map Block.entries).flatten ++ s.builder.entries

/-- Build a table from scratch: `new`, the `add` calls, then `build`. -/
def buildTable (block_size id : Nat) (entries : List ((Key × Value) × Nat)) :
    Option SsTable :=
  ((SsTableBuilder.new block_size).addAll entries).bind fun s => s.build id

/-- The full entry sequence stored in a table, in block order. -/
def SsTable.tableEntries (t : SsTable) : List (Key × Value) :=
  (t.blocks.map Block.entries).flatten

/-- The entry under the iterator, `none` when exhausted. -/
def SsTableIterator.current (s : SsTableIterator) : Option (Key × Value) :=
  if s.is_valid then some (s.key, s.value) else none

/-- Drive the iterator forward, collecting entries, with explicit fuel;
if `next` fails mid-stream the entries seen so far are kept. -/
def SsTableIterator.collect : SsTableIterator → Nat → List (Key × Value)
  | _, 0 => []
  | s, fuel + 1 =>
    if s.is_valid then
      match s.next with
      | some s' => (s.key, s.value) :: s'.collect fuel
      | none => [(s.key, s.value)]
    else []

/-- First key of an entry run (`[]` for an empty run, matching the
builder's reset `first_key`). -/
def headKey (l : List (Key × Value)) : Key :=
  (l.head?.map Prod.fst).getD []

/-- Last key of an entry run (`[]` for an empty run, matching the
builder's reset `last_key`). -/
def lastKey (l : List (Key × Value)) : Key :=
  (l.getLast?.map Prod.fst).getD []

/-- Strictly increasing key sequence, as a decidable check: every key is
below every later key. -/
def strictSorted : List Key → Bool
  | [] => true
  | k :: ks => (ks.all fun k' => decide (k < k')) && strictSorted ks

/-- Well-formedness of a table read view, as established by the builder
for a strictly increasing run of non-empty keys: at least one block,
one BlockMeta entry per block, the meta first/last-key columns matching
the blocks' actual first/last entries, no empty block, strictly
increasing keys overall, and a block count below the `usize` bound. -/
def SsTable.wf (t : SsTable) : Bool :=
  decide (t.blocks ≠ []) &&
  decide (t.block_meta.length = t.blocks.length) &&
  decide (t.block_meta.map BlockMeta.first_key = t.blocks.map fun b => headKey b.entries) &&
  decide (t.block_meta.map BlockMeta.last_key = t.blocks.map fun b => lastKey b.entries) &&
  (t.blocks.all fun b => decide (b.entries ≠ [])) &&
  strictSorted (t.tableEntries.map Prod.fst) &&
  decide (t.blocks.length < usizeBound)

/-! ## Basic lemmas -/

theorem putU32_length (n : Nat) : (putU32 n).length = 4 := rfl

theorem strictSorted_iff_pairwise (ks : List Key) :
    strictSorted ks = true ↔ ks.Pairwise (· < ·) := by
  induction ks with
  | nil => simp [strictSorted]
  | cons k ks ih =>
    simp [strictSorted, List.pairwise_cons, ih, List.all_eq_true, and_comm]

/-- Complete characterization of `SsTableBuilder::add`: the direct
insertion, the finalize-and-retry insertion, and the failed retry
(assertion panic). -/
theorem SsTableBuilder.add_spec (s : SsTableBuilder) (k : Key) (v : Value) (ts : Nat) :
    s.add k v ts =
      (if s.builder.currentSize + entrySize k v ≤ s.builder.block_size then
         some { s with
                builder := ⟨s.builder.block_size, s.builder.entries ++ [(k, v)]⟩
                first_key := if s.first_key.isEmpty then k else s.first_key
                last_key := k
                key_hashes := s.key_hashes ++ [keyHash k]
                max_ts := max s.max_ts ts }
       else if entrySize k v ≤ s.block_size then
         some { s with
                builder := ⟨s.block_size, [(k, v)]⟩
                first_key := k
                last_key := k
                key_hashes := s.key_hashes ++ [keyHash k]
                max_ts := max s.max_ts ts
                meta := s.meta ++
                  [⟨s.data.length, if s.first_key.isEmpty then k else s.first_key, s.last_key⟩]
                data := s.data ++ (BlockBuilder.build s.builder).encode ++
                  putU32 (xxh32 0 (BlockBuilder.build s.builder).encode)
                blocks := s.blocks ++ [BlockBuilder.build s.builder] }
       else none) := by
  have hz : ∀ bs : Nat, (⟨bs, []⟩ : BlockBuilder).currentSize = 0 := fun _ => rfl
  by_cases h1 : s.first_key.isEmpty <;>
    by_cases h4 : s.max_ts < ts <;>
      by_cases h2 : s.builder.currentSize + entrySize k v ≤ s.builder.block_size <;>
        by_cases h3 : entrySize k v ≤ s.block_size <;>
          simp [SsTableBuilder.add, SsTableBuilder.finish_block, BlockBuilder.add,
            BlockBuilder.new, hz, h1, h2, h3, h4] <;>
          omega

/-! ## Invariants of the builder run -/

theorem headKey_nil : headKey [] = [] := rfl

theorem headKey_cons (e : Key × Value) (l : List (Key × Value)) :
    headKey (e :: l) = e.1 := rfl

theorem headKey_append_of_ne {l : List (Key × Value)} (h : l ≠ [])
    (l' : List (Key × Value)) : headKey (l ++ l') = headKey l := by
  cases l with
  | nil => exact absurd rfl h
  | cons e rest => rfl

theorem lastKey_append_single (l : List (Key × Value)) (e : Key × Value) :
    lastKey (l ++ [e]) = e.1 := by
  simp [lastKey]

/-- The direct-insertion case of `add`: the open block accepts. -/
theorem SsTableBuilder.add_of_fits (s : SsTableBuilder) (k : Key) (v : Value) (ts : Nat)
    (h2 : s.builder.currentSize + entrySize k v ≤ s.builder.block_size) :
    s.add k v ts =
      some { s with
             builder := ⟨s.builder.block_size, s.builder.entries ++ [(k, v)]⟩
             first_key := if s.first_key.isEmpty then k else s.first_key
             last_key := k
             key_hashes := s.key_hashes ++ [keyHash k]
             max_ts := max s.max_ts ts } := by
  rw [SsTableBuilder.add_spec, if_pos h2]

/-- The finalize-and-retry case of `add`: the open block rejects and the
entry fits into a fresh block. -/
theorem SsTableBuilder.add_of_reject_fits (s : SsTableBuilder) (k : Key) (v : Value) (ts : Nat)
    (h2 : ¬ s.builder.currentSize + entrySize k v ≤ s.builder.block_size)
    (h3 : entrySize k v ≤ s.block_size) :
    s.add k v ts =
      some { s with
             builder := ⟨s.block_size, [(k, v)]⟩
             first_key := k
             last_key := k
             key_hashes := s.key_hashes ++ [keyHash k]
             max_ts := max s.max_ts ts
             meta := s.meta ++
               [⟨s.data.length, if s.first_key.isEmpty then k else s.first_key, s.last_key⟩]
             data := s.data ++ (BlockBuilder.build s.builder).encode ++
               putU32 (xxh32 0 (BlockBuilder.build s.builder).encode)
             blocks := s.blocks ++ [BlockBuilder.build s.builder] } := by
  rw [SsTableBuilder.add_spec, if_neg h2, if_pos h3]

/-- The panicking case of `add`: both the open block and a fresh empty
block reject the entry, so the retry assertion fires. -/
theorem SsTableBuilder.add_of_reject_reject (s : SsTableBuilder) (k : Key) (v : Value)
    (ts : Nat) (h2 : ¬ s.builder.currentSize + entrySize k v ≤ s.builder.block_size)
    (h3 : ¬ entrySize k v ≤ s.block_size) : s.add k v ts = none := by
  rw [SsTableBuilder.add_spec, if_neg h2, if_neg h3]

/-- Structural invariant of the builder that holds for every run,
whatever the keys: the builder's block-size target matches, one
`BlockMeta` entry exists per finalized block, finalized blocks are
non-empty, and the data buffer is exactly the concatenation of each
finalized block's encoding followed by its 4-byte checksum. -/
structure InvA (s : SsTableBuilder) : Prop where
  bsize : s.builder.block_size = s.block_size
  len_eq : s.meta.length = s.blocks.length
  nonempty : ∀ b ∈ s.blocks, b.entries ≠ []
  datashape : s.data = (s.blocks.map fun b => b.encode ++ putU32 (xxh32 0 b.encode)).flatten

theorem invA_new (bs : Nat) : InvA (SsTableBuilder.new bs) := by
  constructor <;> simp [SsTableBuilder.new, BlockBuilder.new]

theorem add_open_entries_ne (s : SsTableBuilder) (k : Key) (v : Value)
    (hA : InvA s)
    (h2 : ¬ s.builder.currentSize + entrySize k v ≤ s.builder.block_size)
    (h3 : entrySize k v ≤ s.block_size) : s.builder.entries ≠ [] := by
  intro he
  have hz : s.builder.currentSize = 0 := by
    simp [BlockBuilder.currentSize, he]
  have hb := hA.bsize
  omega

theorem add_invA (s : SsTableBuilder) (k : Key) (v : Value) (ts : Nat) (hA : InvA s) :
    ∀ s', s.add k v ts = some s' → InvA s' := by
  intro s' h
  by_cases h2 : s.builder.currentSize + entrySize k v ≤ s.builder.block_size
  · rw [s.add_of_fits k v ts h2] at h
    injection h with h
    subst h
    exact ⟨hA.bsize, hA.len_eq, hA.nonempty, hA.datashape⟩
  · by_cases h3 : entrySize k v ≤ s.block_size
    · rw [s.add_of_reject_fits k v ts h2 h3] at h
      injection h with h
      subst h
      have hopen := add_open_entries_ne s k v hA h2 h3
      refine ⟨rfl, ?_, ?_, ?_⟩
      · simp [hA.len_eq]
      · intro b hb
        simp only [List.mem_append, List.mem_singleton] at hb
        rcases hb with hb | hb
        · exact hA.nonempty b hb
        · subst hb
          simpa [BlockBuilder.build] using hopen
      · simp [hA.datashape, BlockBuilder.build]
    · rw [s.add_of_reject_reject k v ts h2 h3] at h
      exact Option.noConfusion h

theorem add_allEntries (s : SsTableBuilder) (k : Key) (v : Value) (ts : Nat) :
    ∀ s', s.add k v ts = some s' → s'.allEntries = s.allEntries ++ [(k, v)] := by
  intro s' h
  by_cases h2 : s.builder.currentSize + entrySize k v ≤ s.builder.block_size
  · rw [s.add_of_fits k v ts h2] at h
    injection h with h
    subst h
    simp [SsTableBuilder.allEntries]
  · by_cases h3 : entrySize k v ≤ s.block_size
    · rw [s.add_of_reject_fits k v ts h2 h3] at h
      injection h with h
      subst h
      simp [SsTableBuilder.allEntries, BlockBuilder.build]
    · rw [s.add_of_reject_reject k v ts h2 h3] at h
      exact Option.noConfusion h

theorem add_open_ne (s : SsTableBuilder) (k : Key) (v : Value) (ts : Nat) :
    ∀ s', s.add k v ts = some s' → s'.builder.entries ≠ [] := by
  intro s' h
  by_cases h2 : s.builder.currentSize + entrySize k v ≤ s.builder.block_size
  · rw [s.add_of_fits k v ts h2] at h
    injection h with h
    subst h
    simp
  · by_cases h3 : entrySize k v ≤ s.block_size
    · rw [s.add_of_reject_fits k v ts h2 h3] at h
      injection h with h
      subst h
      simp
    · rw [s.add_of_reject_reject k v ts h2 h3] at h
      exact Option.noConfusion h

theorem add_block_size (s : SsTableBuilder) (k : Key) (v : Value) (ts : Nat) :
    ∀ s', s.add k v ts = some s' → s'.block_size = s.block_size := by
  intro s' h
  by_cases h2 : s.builder.currentSize + entrySize k v ≤ s.builder.block_size
  · rw [s.add_of_fits k v ts h2] at h
    injection h with h
    subst h
    rfl
  · by_cases h3 : entrySize k v ≤ s.block_size
    · rw [s.add_of_reject_fits k v ts h2 h3] at h
      injection h with h
      subst h
      rfl
    · rw [s.add_of_reject_reject k v ts h2 h3] at h
      exact Option.noConfusion h

/-- Per-add bookkeeping recorded before the block-insertion attempt: the
key hash is appended and the watermark becomes the max of the old
watermark and the clock reading. -/
theorem add_hashes_ts (s : SsTableBuilder) (k : Key) (v : Value) (ts : Nat) :
    ∀ s', s.add k v ts = some s' →
      s'.key_hashes = s.key_hashes ++ [keyHash k] ∧ s'.max_ts = max s.max_ts ts := by
  intro s' h
  by_cases h2 : s.builder.currentSize + entrySize k v ≤ s.builder.block_size
  · rw [s.add_of_fits k v ts h2] at h
    injection h with h
    subst h
    exact ⟨rfl, rfl⟩
  · by_cases h3 : entrySize k v ≤ s.block_size
    · rw [s.add_of_reject_fits k v ts h2 h3] at h
      injection h with h
      subst h
      exact ⟨rfl, rfl⟩
    · rw [s.add_of_reject_reject k v ts h2 h3] at h
      exact Option.noConfusion h

/-- Sentinel-dependent invariant of the builder run, maintained as long
as every inserted key is non-empty: the tracked first/last keys match
the open block's actual first/last entries, and the BlockMeta first/last
key columns match the finalized blocks' actual first/last entries. -/
structure InvB (s : SsTableBuilder) : Prop where
  fk : s.first_key = headKey s.builder.entries
  lk : s.last_key = lastKey s.builder.entries
  metaFirst : s.meta.map BlockMeta.first_key = s.blocks.map fun b => headKey b.entries
  metaLast : s.meta.map BlockMeta.last_key = s.blocks.map fun b => lastKey b.entries
  openKeys : ∀ e ∈ s.builder.entries, e.1 ≠ []

theorem invB_new (bs : Nat) : InvB (SsTableBuilder.new bs) := by
  constructor <;> simp [SsTableBuilder.new, BlockBuilder.new, headKey, lastKey]

theorem add_invB (s : SsTableBuilder) (k : Key) (v : Value) (ts : Nat)
    (hA : InvA s) (hB : InvB s) (hk : k ≠ []) :
    ∀ s', s.add k v ts = some s' → InvB s' := by
  have hfk : s.builder.entries ≠ [] →
      ((if s.first_key.isEmpty then k else s.first_key) = headKey s.builder.entries) := by
    intro hne
    cases hcs : s.builder.entries with
    | nil => exact absurd hcs hne
    | cons e rest =>
      have he1 : e.1 ≠ [] := hB.openKeys e (by simp [hcs])
      have hse : s.first_key = e.1 := by
        simpa [hcs, headKey_cons] using hB.fk
      rw [hse]
      simp [List.isEmpty_iff, he1, hcs, headKey_cons]
  have hfk2 : s.builder.entries ≠ [] →
      ((if s.first_key = [] then k else s.first_key) = headKey s.builder.entries) := by
    intro hne
    have h := hfk hne
    by_cases hc : s.first_key = []
    · simpa [hc] using h
    · simpa [hc, List.isEmpty_iff] using h
  intro s' h
  by_cases h2 : s.builder.currentSize + entrySize k v ≤ s.builder.block_size
  · rw [s.add_of_fits k v ts h2] at h
    injection h with h
    subst h
    constructor
    · show (if s.first_key.isEmpty then k else s.first_key) =
        headKey (s.builder.entries ++ [(k, v)])
      cases hcs : s.builder.entries with
      | nil =>
        have hse : s.first_key = [] := by simpa [hcs, headKey_nil] using hB.fk
        simp [hse, hcs, headKey_cons]
      | cons e rest =>
        rw [headKey_append_of_ne (by simp [hcs]), ← hcs]
        exact hfk (by simp [hcs])
    · show k = lastKey (s.builder.entries ++ [(k, v)])
      rw [lastKey_append_single]
    · exact hB.metaFirst
    · exact hB.metaLast
    · intro e he
      simp only [List.mem_append, List.mem_singleton] at he
      rcases he with he | he
      · exact hB.openKeys e he
      · subst he
        exact hk
  · by_cases h3 : entrySize k v ≤ s.block_size
    · rw [s.add_of_reject_fits k v ts h2 h3] at h
      injection h with h
      subst h
      have hopen := add_open_entries_ne s k v hA h2 h3
      constructor
      · simp [headKey_cons]
      · simp [lastKey]
      · simp [hB.metaFirst, BlockBuilder.build, hfk2 hopen]
      · simp [hB.metaLast, BlockBuilder.build, hB.lk]
      · intro e he
        simp only [List.mem_singleton] at he
        subst he
        exact hk
    · rw [s.add_of_reject_reject k v ts h2 h3] at h
      exact Option.noConfusion h

/-! ## The full add sequence -/

theorem add_isSome (s : SsTableBuilder) (k : Key) (v : Value) (ts : Nat)
    (h3 : entrySize k v ≤ s.block_size) : (s.add k v ts).isSome = true := by
  by_cases h2 : s.builder.currentSize + entrySize k v ≤ s.builder.block_size
  · rw [s.add_of_fits k v ts h2]
    rfl
  · rw [s.add_of_reject_fits k v ts h2 h3]
    rfl

theorem addAll_invA (es : List ((Key × Value) × Nat)) :
    ∀ s, InvA s → ∀ s', s.addAll es = some s' → InvA s' := by
  induction es with
  | nil =>
    intro s hA s' h
    injection h with h
    subst h
    exact hA
  | cons e rest ih =>
    intro s hA s' h
    simp only [SsTableBuilder.addAll] at h
    cases h1 : s.add e.1.1 e.1.2 e.2 with
    | none => rw [h1] at h; exact Option.noConfusion h
    | some s1 =>
      rw [h1, Option.some_bind] at h
      exact ih s1 (add_invA s e.1.1 e.1.2 e.2 hA s1 h1) s' h

theorem addAll_invB (es : List ((Key × Value) × Nat)) :
    ∀ s, InvA s → InvB s → (∀ e ∈ es, e.1.1 ≠ []) →
      ∀ s', s.addAll es = some s' → InvB s' := by
  induction es with
  | nil =>
    intro s _ hB _ s' h
    injection h with h
    subst h
    exact hB
  | cons e rest ih =>
    intro s hA hB hne s' h
    simp only [SsTableBuilder.addAll] at h
    cases h1 : s.add e.1.1 e.1.2 e.2 with
    | none => rw [h1] at h; exact Option.noConfusion h
    | some s1 =>
      rw [h1, Option.some_bind] at h
      exact ih s1 (add_invA s e.1.1 e.1.2 e.2 hA s1 h1)
        (add_invB s e.1.1 e.1.2 e.2 hA hB (hne e (by simp)) s1 h1)
        (fun e' he' => hne e' (by simp [he'])) s' h

theorem addAll_allEntries (es : List ((Key × Value) × Nat)) :
    ∀ (s s' : SsTableBuilder), s.addAll es = some s' →
      s'.allEntries = s.allEntries ++ es.map (fun e => e.1) := by
  induction es with
  | nil =>
    intro s s' h
    injection h with h
    subst h
    simp
  | cons e rest ih =>
    intro s s' h
    simp only [SsTableBuilder.addAll] at h
    cases h1 : s.add e.1.1 e.1.2 e.2 with
    | none => rw [h1] at h; exact Option.noConfusion h
    | some s1 =>
      rw [h1, Option.some_bind] at h
      rw [ih s1 s' h, add_allEntries s e.1.1 e.1.2 e.2 s1 h1]
      simp

theorem addAll_block_size (es : List ((Key × Value) × Nat)) :
    ∀ (s s' : SsTableBuilder), s.addAll es = some s' → s'.block_size = s.block_size := by
  induction es with
  | nil =>
    intro s s' h
    injection h with h
    subst h
    rfl
  | cons e rest ih =>
    intro s s' h
    simp only [SsTableBuilder.addAll] at h
    cases h1 : s.add e.1.1 e.1.2 e.2 with
    | none => rw [h1] at h; exact Option.noConfusion h
    | some s1 =>
      rw [h1, Option.some_bind] at h
      rw [ih s1 s' h, add_block_size s e.1.1 e.1.2 e.2 s1 h1]

theorem addAll_open_ne (es : List ((Key × Value) × Nat)) :
    ∀ (s s' : SsTableBuilder), s.addAll es = some s' → es ≠ [] → s'.builder.entries ≠ [] := by
  induction es with
  | nil =>
    intro s s' _ h
    exact absurd rfl h
  | cons e rest ih =>
    intro s s' h _
    simp only [SsTableBuilder.addAll] at h
    cases h1 : s.add e.1.1 e.1.2 e.2 with
    | none => rw [h1] at h; exact Option.noConfusion h
    | some s1 =>
      rw [h1, Option.some_bind] at h
      cases hr : rest with
      | nil =>
        subst hr
        injection h with h
        subst h
        exact add_open_ne s e.1.1 e.1.2 e.2 s1 h1
      | cons e' rest' =>
        exact ih s1 s' (hr ▸ h) (by simp [hr])

theorem addAll_hashes_ts (es : List ((Key × Value) × Nat)) :
    ∀ (s s' : SsTableBuilder), s.addAll es = some s' →
      s'.key_hashes = s.key_hashes ++ es.map (fun e => keyHash e.1.1) ∧
      s'.max_ts = (es.map (fun e => e.2)).foldl max s.max_ts := by
  induction es with
  | nil =>
    intro s s' h
    injection h with h
    subst h
    simp
  | cons e rest ih =>
    intro s s' h
    simp only [SsTableBuilder.addAll] at h
    cases h1 : s.add e.1.1 e.1.2 e.2 with
    | none => rw [h1] at h; exact Option.noConfusion h
    | some s1 =>
      rw [h1, Option.some_bind] at h
      obtain ⟨hh, ht⟩ := add_hashes_ts s e.1.1 e.1.2 e.2 s1 h1
      obtain ⟨hh', ht'⟩ := ih s1 s' h
      constructor
      · rw [hh', hh]
        simp
      · rw [ht', ht]
        simp

theorem addAll_isSome (es : List ((Key × Value) × Nat)) :
    ∀ s : SsTableBuilder, (∀ e ∈ es, entrySize e.1.1 e.1.2 ≤ s.block_size) →
      (s.addAll es).isSome = true := by
  induction es with
  | nil =>
    intro s _
    rfl
  | cons e rest ih =>
    intro s hfit
    simp only [SsTableBuilder.addAll]
    cases h1 : s.add e.1.1 e.1.2 e.2 with
    | none =>
      have := add_isSome s e.1.1 e.1.2 e.2 (hfit e (by simp))
      rw [h1] at this
      exact absurd this (by simp)
    | some s1 =>
      rw [Option.some_bind]
      have hbs := add_block_size s e.1.1 e.1.2 e.2 s1 h1
      exact ih s1 fun e' he' => hbs ▸ hfit e' (by simp [he'])

/-! ## Finalization and build -/

/-- Complete characterization of `SsTableBuilder::finish_block` as a
state transformation. -/
theorem SsTableBuilder.finish_block_spec (s : SsTableBuilder) :
    s.finish_block =
      { s with
        builder := BlockBuilder.new s.block_size
        first_key := []
        last_key := []
        meta := s.meta ++ [⟨s.data.length, s.first_key, s.last_key⟩]
        data := s.data ++ (BlockBuilder.build s.builder).encode ++
          putU32 (xxh32 0 (BlockBuilder.build s.builder).encode)
        blocks := s.blocks ++ [BlockBuilder.build s.builder] } := rfl

/-- Builder `build` always succeeds (the final `finish_block`
guarantees a non-empty BlockMeta sequence, so the `unwrap`s cannot
panic), and its result's fields are as assembled from the post-
finalization state. -/
theorem build_spec (s : SsTableBuilder) (id : Nat) :
    ∃ t, s.build id = some t ∧
      t.id = id ∧
      t.blocks = s.blocks ++ [BlockBuilder.build s.builder] ∧
      t.block_meta = s.meta ++ [⟨s.data.length, s.first_key, s.last_key⟩] ∧
      t.block_meta_offset = (s.finish_block).data.length ∧
      t.max_ts = s.max_ts ∧
      t.bloom = some (Bloom.build_from_key_hashes s.key_hashes
        (Bloom.bloom_bits_per_key s.key_hashes.length (1 / 100))) ∧
      (∀ m0, (s.meta ++ [(⟨s.data.length, s.first_key, s.last_key⟩ : BlockMeta)]).head? = some m0 →
        t.first_key = m0.first_key) ∧
      t.last_key = s.last_key := by
  obtain ⟨m0, hm0⟩ :
      ∃ m0, (s.meta ++ [(⟨s.data.length, s.first_key, s.last_key⟩ : BlockMeta)]).head? = some m0 := by
    cases s.meta <;> exact ⟨_, rfl⟩
  have hml : (s.meta ++ [(⟨s.data.length, s.first_key, s.last_key⟩ : BlockMeta)]).getLast? =
      some ⟨s.data.length, s.first_key, s.last_key⟩ := by
    simp
  cases hb : s.build id with
  | none =>
    exfalso
    simp only [SsTableBuilder.build, SsTableBuilder.finish_block_spec, hm0, hml] at hb
    exact Option.noConfusion hb
  | some t =>
    simp only [SsTableBuilder.build, SsTableBuilder.finish_block_spec, hm0, hml,
      Option.some.injEq] at hb
    refine ⟨t, rfl, ?_, ?_, ?_, ?_, ?_, ?_, ?_, ?_⟩
    · rw [← hb]
    · rw [← hb]
    · rw [← hb]
    · rw [← hb, SsTableBuilder.finish_block_spec]
    · rw [← hb]
    · rw [← hb]
    · intro m0' hm0'
      rw [hm0] at hm0'
      injection hm0' with hm0'
      subst hm0'
      rw [← hb]
    · rw [← hb]

/-! ## Forward iteration over a table -/

theorem collect_invalid (s : SsTableIterator) (fuel : Nat)
    (h : s.is_valid = false) : s.collect fuel = [] := by
  cases fuel with
  | zero => rfl
  | succ f => simp [SsTableIterator.collect, h]

/-- Driving the iterator forward from position `j` of the current block
(block index `pre.length`) yields the rest of that block followed by all
later blocks, provided later blocks are non-empty (the builder never
produces empty blocks) and the starting position is on an entry (or
nothing remains at all). -/
theorem collect_spec (fuel : Nat) :
    ∀ (t : SsTable) (pre post : List Block) (cur : Block) (j : Nat),
      t.blocks = pre ++ cur :: post →
      t.block_meta.length = t.blocks.length →
      t.blocks.length < usizeBound →
      (∀ b ∈ post, b.entries ≠ []) →
      (j < cur.entries.length ∨ post = []) →
      cur.entries.length - j + (post.map fun b => b.entries.length).sum < fuel + 1 →
      SsTableIterator.collect ⟨t, ⟨cur, j⟩, pre.length⟩ fuel =
        cur.entries.drop j ++ (post.map Block.entries).flatten := by
  induction fuel with
  | zero =>
    intro t pre post cur j hblocks hlen hbound hpost hstart hfuel
    have hpost0 : post = [] := by
      rcases hstart with hj | hp
      · omega
      · exact hp
    subst hpost0
    have hj : cur.entries.length ≤ j := by
      rcases hstart with hj | hp
      · omega
      · omega
    simp [SsTableIterator.collect, List.drop_eq_nil_of_le hj]
  | succ fuel ih =>
    intro t pre post cur j hblocks hlen hbound hpost hstart hfuel
    by_cases hj : j < cur.entries.length
    · -- positioned on entry j of the current block
      have hvalid : SsTableIterator.is_valid ⟨t, ⟨cur, j⟩, pre.length⟩ = true := by
        simp [SsTableIterator.is_valid, BlockIterator.is_valid, hj]
      have hkv : (SsTableIterator.key ⟨t, ⟨cur, j⟩, pre.length⟩,
          SsTableIterator.value ⟨t, ⟨cur, j⟩, pre.length⟩) = cur.entries[j] := by
        simp [SsTableIterator.key, SsTableIterator.value, BlockIterator.key,
          BlockIterator.value, List.getElem?_eq_getElem hj]
      have hdrop := List.drop_eq_getElem_cons hj
      by_cases hj1 : j + 1 < cur.entries.length
      · -- stay in the same block
        have hnext : SsTableIterator.next ⟨t, ⟨cur, j⟩, pre.length⟩ =
            some ⟨t, ⟨cur, j + 1⟩, pre.length⟩ := by
          simp [SsTableIterator.next, BlockIterator.next, BlockIterator.is_valid, hj1]
        have hrec := ih t pre post cur (j + 1) hblocks hlen hbound hpost (Or.inl hj1)
          (by omega)
        simp only [SsTableIterator.collect, hvalid, if_true, hnext]
        rw [hrec, hkv, hdrop, List.cons_append]
      · -- past the current block: the incremented index
        have hmod : (pre.length + 1) % usizeBound = pre.length + 1 := by
          apply Nat.mod_eq_of_lt
          have : t.blocks.length = pre.length + 1 + post.length := by
            rw [hblocks]
            simp [List.length_append]
            omega
          omega
        have hnum : t.num_of_blocks = pre.length + 1 + post.length := by
          rw [SsTable.num_of_blocks, hlen, hblocks]
          simp [List.length_append]
          omega
        cases post with
        | cons b' post' =>
          -- cross into the next block
          have hread : t.read_block_cached (pre.length + 1) = some b' := by
            rw [SsTable.read_block_cached, hblocks, List.getElem?_append,
              if_neg (by omega)]
            have h1 : pre.length + 1 - pre.length = 1 := by omega
            rw [h1]
            simp
          have hnext : SsTableIterator.next ⟨t, ⟨cur, j⟩, pre.length⟩ =
              some ⟨t, ⟨b', 0⟩, pre.length + 1⟩ := by
            simp only [SsTableIterator.next, BlockIterator.next, BlockIterator.is_valid]
            rw [if_neg (by simp; omega)]
            simp only [hmod, hnum]
            rw [if_pos (by simp), hread]
            rfl
          have hb'ne : b'.entries ≠ [] := hpost b' (by simp)
          have hb'pos : 0 < b'.entries.length := List.length_pos.mpr hb'ne
          have hrec := ih t (pre ++ [cur]) post' b' 0
            (by rw [hblocks]; simp)
            hlen hbound
            (fun b hb => hpost b (by simp [hb]))
            (Or.inl hb'pos)
            (by simp only [List.map_cons, List.sum_cons] at hfuel; omega)
          rw [List.length_append] at hrec
          simp only [List.length_cons, List.length_nil, Nat.zero_add] at hrec
          have hlast : cur.entries.drop (j + 1) = [] :=
            List.drop_eq_nil_of_le (by omega)
          simp only [SsTableIterator.collect, hvalid, if_true, hnext]
          rw [hrec, hkv, hdrop, hlast]
          simp
        | nil =>
          -- no next block: the iterator is exhausted after this entry
          have hnext : SsTableIterator.next ⟨t, ⟨cur, j⟩, pre.length⟩ =
              some ⟨t, ⟨cur, j + 1⟩, pre.length + 1⟩ := by
            simp only [SsTableIterator.next, BlockIterator.next, BlockIterator.is_valid]
            rw [if_neg (by simp; omega)]
            simp only [hmod, hnum, List.length_nil]
            rw [if_neg (by omega)]
          have hinv : SsTableIterator.collect ⟨t, ⟨cur, j + 1⟩, pre.length + 1⟩ fuel = [] := by
            apply collect_invalid
            simp [SsTableIterator.is_valid, BlockIterator.is_valid]
            omega
          have hlast : cur.entries.drop (j + 1) = [] :=
            List.drop_eq_nil_of_le (by omega)
          simp only [SsTableIterator.collect, hvalid, if_true, hnext]
          rw [hinv, hkv, hdrop, hlast]
          simp
    · -- not positioned: nothing remains
      have hpost0 : post = [] := by
        rcases hstart with hs | hs
        · exact absurd hs hj
        · exact hs
      subst hpost0
      have hinv : SsTableIterator.is_valid ⟨t, ⟨cur, j⟩, pre.length⟩ = false := by
        simp [SsTableIterator.is_valid, BlockIterator.is_valid]
        omega
      rw [collect_invalid _ _ hinv, List.drop_eq_nil_of_le (by omega)]
      rfl

/-! ## Helper lemmas for the seek analysis -/

theorem blocks_length_le_entries (L : List Block) (h : ∀ b ∈ L, b.entries ≠ []) :
    L.length ≤ ((L.map Block.entries).flatten).length := by
  induction L with
  | nil => simp
  | cons b rest ih =>
    simp only [List.map_cons, List.flatten_cons, List.length_append, List.length_cons]
    have hb : 1 ≤ b.entries.length := List.length_pos.mpr (h b (by simp))
    have hr := ih fun b' hb' => h b' (by simp [hb'])
    omega

theorem find?_eq_some_getElem_findIdx {α : Type} (p : α → Bool) (l : List α)
    (h : l.findIdx p < l.length) : l.find? p = some (l[l.findIdx p]) := by
  induction l with
  | nil => simp at h
  | cons a l ih =>
    by_cases hp : p a
    · simp [List.find?_cons, hp, List.findIdx_cons]
    · simp only [List.findIdx_cons, hp, cond_false] at h ⊢
      simp only [List.find?_cons, hp]
      rw [ih (by simpa using h)]
      simp

theorem takeWhile_length_le {α : Type} (p : α → Bool) (l : List α) :
    (l.takeWhile p).length ≤ l.length := by
  have h := congrArg List.length (List.takeWhile_append_dropWhile p l)
  rw [List.length_append] at h
  omega

theorem takeWhile_stop {α : Type} (p : α → Bool) (l : List α)
    (h : (l.takeWhile p).length < l.length) :
    p (l[(l.takeWhile p).length]) = false := by
  induction l with
  | nil => simp at h
  | cons a l ih =>
    by_cases hp : p a
    · simp only [List.takeWhile_cons, hp, if_true, List.length_cons] at h ⊢
      simpa using ih (by omega)
    · simp [List.takeWhile_cons, hp]

theorem dropWhile_head_not {α : Type} (p : α → Bool) (l : List α) :
    ∀ b R, l.dropWhile p = b :: R → p b = false := by
  induction l with
  | nil => intro b R h; exact absurd h (by simp)
  | cons a l ih =>
    intro b R h
    by_cases hp : p a
    · rw [List.dropWhile_cons_of_pos hp] at h
      exact ih b R h
    · rw [List.dropWhile_cons_of_neg hp] at h
      injection h with h1 _
      subst h1
      exact Bool.not_eq_true _ ▸ (by simpa using hp)

theorem pairwise_fst_append (key : Key) (l1 l2 : List (Key × Value))
    (h : List.Pairwise (· < ·) ((l1 ++ l2).map Prod.fst)) :
    ∀ x ∈ l1, ∀ y ∈ l2, x.1 < y.1 := by
  rw [List.map_append] at h
  have h3 := (List.pairwise_append.mp h).2.2
  intro x hx y hy
  exact h3 x.1 (List.mem_map_of_mem Prod.fst hx) y.1 (List.mem_map_of_mem Prod.fst hy)

theorem find?_none_of_lt (key : Key) (l : List (Key × Value))
    (h : ∀ e ∈ l, e.1 < key) :
    l.find? (fun e => decide (key ≤ e.1)) = none := by
  rw [List.find?_eq_none]
  intro e he
  simp only [decide_eq_true_eq]
  exact not_le_of_lt (h e he)

/-- Operation `seek_to_key` positions the iterator on the first entry of the whole
table whose key is `≥ key`, or exhausts it when no such entry exists. -/
theorem seek_correct (t : SsTable) (key : Key) (hwf : t.wf = true) :
    ∃ it, SsTableIterator.create_and_seek_to_key t key = some it ∧
      it.current = t.tableEntries.find? (fun e => decide (key ≤ e.1)) := by
  rw [SsTable.wf] at hwf
  simp only [Bool.and_eq_true, decide_eq_true_eq, List.all_eq_true] at hwf
  obtain ⟨⟨⟨⟨⟨⟨hne, hlen⟩, hmf⟩, hml⟩, hbne⟩, hsorted⟩, hbound⟩ := hwf
  have hbne' : ∀ b ∈ t.blocks, b.entries ≠ [] := fun b hb => by simpa using hbne b hb
  have hsort := (strictSorted_iff_pairwise _).mp hsorted
  have htrans : t.find_block_idx key =
      (t.blocks.takeWhile fun b => decide (headKey b.entries ≤ key)).length - 1 := by
    rw [SsTable.find_block_idx]
    congr 1
    calc (t.block_meta.takeWhile fun m => decide (m.first_key ≤ key)).length
        = ((t.block_meta.map BlockMeta.first_key).takeWhile
            fun fk => decide (fk ≤ key)).length := by
          rw [List.takeWhile_map, List.length_map]
          rfl
      _ = ((t.blocks.map fun b => headKey b.entries).takeWhile
            fun fk => decide (fk ≤ key)).length := by rw [hmf]
      _ = (t.blocks.takeWhile fun b => decide (headKey b.entries ≤ key)).length := by
          rw [List.takeWhile_map, List.length_map]
          rfl
  cases htw : t.blocks.takeWhile fun b => decide (headKey b.entries ≤ key) with
  | nil =>
    -- key precedes every block: clamp to block 0
    cases hA : t.blocks with
    | nil => exact absurd hA hne
    | cons b0 rest =>
      have hp0 : decide (headKey b0.entries ≤ key) = false := by
        by_contra hcon
        rw [hA, List.takeWhile_cons, eq_true_of_ne_false hcon, if_pos rfl] at htw
        exact List.noConfusion htw
      have hkey0 : key < headKey b0.entries := by
        simp only [decide_eq_false_iff_not] at hp0
        exact lt_of_not_le hp0
      have hfbi0 : t.find_block_idx key = 0 := by
        rw [htrans, htw]
        rfl
      cases hB0 : b0.entries with
      | nil => exact absurd hB0 (hbne' b0 (by rw [hA]; simp))
      | cons e0 es0 =>
        have hk0 : headKey b0.entries = e0.1 := by rw [hB0]; rfl
        have hkey0' : decide (key ≤ e0.1) = true := by
          simp only [decide_eq_true_eq]
          exact le_of_lt (hk0 ▸ hkey0)
        have hseek : BlockIterator.create_and_seek_to_key b0 key = ⟨b0, 0⟩ := by
          rw [BlockIterator.create_and_seek_to_key]
          congr 1
          rw [hB0, List.findIdx_cons, hkey0']
          rfl
        have hread : t.read_block_cached 0 = some b0 := by
          rw [SsTable.read_block_cached, hA]
          simp
        have hvalid : (BlockIterator.mk b0 0).is_valid = true := by
          simp [BlockIterator.is_valid, hB0]
        refine ⟨⟨t, ⟨b0, 0⟩, 0⟩, ?_, ?_⟩
        · rw [SsTableIterator.create_and_seek_to_key, SsTableIterator.initialize_key_block,
            hfbi0, hread, Option.some_bind, hseek]
          rw [if_pos hvalid]
          rfl
        · rw [SsTableIterator.current]
          have hv2 : SsTableIterator.is_valid ⟨t, ⟨b0, 0⟩, 0⟩ = true := hvalid
          rw [if_pos hv2]
          rw [SsTable.tableEntries, hA]
          simp only [List.map_cons, List.flatten_cons, hB0]
          rw [List.cons_append]
          simp only [List.find?_cons, hkey0']
          simp [SsTableIterator.key, SsTableIterator.value, BlockIterator.key,
            BlockIterator.value, hB0]
  | cons tb tws =>
    -- the candidate block B is the last block of the takeWhile prefix
    obtain ⟨P, B, hPB⟩ :
        ∃ P B, (t.blocks.takeWhile fun b => decide (headKey b.entries ≤ key)) = P ++ [B] := by
      refine ⟨(tb :: tws).dropLast, (tb :: tws).getLast (by simp), ?_⟩
      rw [htw]
      exact (List.dropLast_append_getLast (by simp)).symm
    have hA : t.blocks = P ++ B ::
        (t.blocks.dropWhile fun b => decide (headKey b.entries ≤ key)) := by
      conv_lhs => rw [← List.takeWhile_append_dropWhile
        (fun b => decide (headKey b.entries ≤ key)) t.blocks]
      rw [hPB]
      simp
    have hpB : decide (headKey B.entries ≤ key) = true := by
      have hmem : B ∈ t.blocks.takeWhile fun b => decide (headKey b.entries ≤ key) := by
        rw [hPB]
        simp
      exact @List.mem_takeWhile_imp Block (fun b => decide (headKey b.entries ≤ key)) t.blocks B hmem
    have hBk : headKey B.entries ≤ key := by simpa using hpB
    have hBne : B.entries ≠ [] := hbne' B (by rw [hA]; simp)
    have hfbi : t.find_block_idx key = P.length := by
      rw [htrans, hPB]
      simp
    have hread : t.read_block_cached P.length = some B := by
      rw [SsTable.read_block_cached, hA, List.getElem?_append, if_neg (by omega)]
      simp
    cases hBE : B.entries with
    | nil => exact absurd hBE hBne
    | cons eb ebs =>
      have hkeb : eb.1 = headKey B.entries := by rw [hBE]; rfl
      -- the table entries split around block B
      set R := t.blocks.dropWhile fun b => decide (headKey b.entries ≤ key) with hR
      have hTE : t.tableEntries =
          (P.map Block.entries).flatten ++ (B.entries ++ (R.map Block.entries).flatten) := by
        rw [SsTable.tableEntries, hA]
        simp
      have hsort' : List.Pairwise (· < ·)
          (((P.map Block.entries).flatten ++
            (B.entries ++ (R.map Block.entries).flatten)).map Prod.fst) := by
        rw [← hTE]
        exact hsort
      have hpre : ∀ x ∈ (P.map Block.entries).flatten, x.1 < key := by
        intro x hx
        have hcross := pairwise_fst_append key _ _ hsort'
        have h1 : x.1 < eb.1 := hcross x hx eb (by rw [hBE]; simp)
        exact lt_of_lt_of_le (hkeb ▸ h1) hBk
      have hfindP : ((P.map Block.entries).flatten).find?
          (fun e => decide (key ≤ e.1)) = none := find?_none_of_lt key _ hpre
      set jB := B.entries.findIdx fun e => decide (key ≤ e.1) with hjB
      have hseekB : BlockIterator.create_and_seek_to_key B key = ⟨B, jB⟩ := rfl
      by_cases hj : jB < B.entries.length
      · -- the candidate block holds the answer
        have hvalid : (BlockIterator.mk B jB).is_valid = true := by
          simp [BlockIterator.is_valid, hj]
        refine ⟨⟨t, ⟨B, jB⟩, P.length⟩, ?_, ?_⟩
        · rw [SsTableIterator.create_and_seek_to_key, SsTableIterator.initialize_key_block,
            hfbi, hread, Option.some_bind, hseekB]
          rw [if_pos hvalid]
          rfl
        · rw [SsTableIterator.current]
          have hv2 : SsTableIterator.is_valid ⟨t, ⟨B, jB⟩, P.length⟩ = true := hvalid
          rw [if_pos hv2]
          rw [hTE, List.find?_append, hfindP, Option.none_or, List.find?_append,
            find?_eq_some_getElem_findIdx _ _ hj]
          simp [SsTableIterator.key, SsTableIterator.value, BlockIterator.key,
            BlockIterator.value, List.getElem?_eq_getElem hj]
      · -- key is past block B entirely
        have hjlen : jB = B.entries.length := by
          have := @List.findIdx_le_length (Key × Value) (fun e => decide (key ≤ e.1)) B.entries
          omega
        have hallB : ∀ e ∈ B.entries, e.1 < key := by
          intro e he
          have hfalse := List.findIdx_eq_length.mp hjlen e he
          simp only [decide_eq_false_iff_not] at hfalse
          exact lt_of_not_le hfalse
        have hinvalid : (BlockIterator.mk B jB).is_valid = false := by
          simp [BlockIterator.is_valid]
          omega
        have hclen : P.length + 1 ≤ t.blocks.length := by
          have := takeWhile_length_le (fun b => decide (headKey b.entries ≤ key)) t.blocks
          rw [hPB] at this
          simpa using this
        have hguard : P.length + 1 < usizeBound := by omega
        have hfindPB : (((P.map Block.entries).flatten) ++ B.entries).find?
            (fun e => decide (key ≤ e.1)) = none := by
          rw [List.find?_append, hfindP, Option.none_or]
          exact find?_none_of_lt key _ hallB
        cases hRc : R with
        | cons b' R' =>
          have hpb' : decide (headKey b'.entries ≤ key) = false := by
            apply dropWhile_head_not (fun b => decide (headKey b.entries ≤ key)) t.blocks b' R'
            rw [← hR, hRc]
          have hkb' : key < headKey b'.entries := by
            simp only [decide_eq_false_iff_not] at hpb'
            exact lt_of_not_le hpb'
          have hb'ne : b'.entries ≠ [] := hbne' b' (by rw [hA, hRc]; simp)
          cases hb'E : b'.entries with
          | nil => exact absurd hb'E hb'ne
          | cons e' es' =>
            have hke' : e'.1 = headKey b'.entries := by rw [hb'E]; rfl
            have hpe' : decide (key ≤ e'.1) = true := by
              simp only [decide_eq_true_eq]
              exact le_of_lt (hke' ▸ hkb')
            have hnum : P.length + 1 < t.num_of_blocks := by
              rw [SsTable.num_of_blocks, hlen, hA, hRc]
              simp
            have hread' : t.read_block_cached (P.length + 1) = some b' := by
              rw [SsTable.read_block_cached, hA, hRc, List.getElem?_append,
                if_neg (by omega)]
              have h1 : P.length + 1 - P.length = 1 := by omega
              rw [h1]
              simp
            have hvalid' : (BlockIterator.mk b' 0).is_valid = true := by
              simp [BlockIterator.is_valid, hb'E]
            refine ⟨⟨t, ⟨b', 0⟩, P.length + 1⟩, ?_, ?_⟩
            · rw [SsTableIterator.create_and_seek_to_key, SsTableIterator.initialize_key_block,
                hfbi, hread, Option.some_bind, hseekB]
              rw [if_neg (by rw [hinvalid]; simp), if_pos hguard, if_pos hnum, hread']
              rfl
            · rw [SsTableIterator.current]
              have hv2 : SsTableIterator.is_valid ⟨t, ⟨b', 0⟩, P.length + 1⟩ = true := hvalid'
              rw [if_pos hv2]
              rw [hTE, ← List.append_assoc, List.find?_append, hfindPB, Option.none_or,
                hRc]
              simp only [List.map_cons, List.flatten_cons, hb'E]
              rw [List.cons_append]
              simp only [List.find?_cons, hpe']
              simp [SsTableIterator.key, SsTableIterator.value, BlockIterator.key,
                BlockIterator.value, hb'E]
        | nil =>
          -- no next block: exhausted
          have hnum : ¬ (P.length + 1 < t.num_of_blocks) := by
            rw [SsTable.num_of_blocks, hlen, hA, hRc]
            simp
          refine ⟨⟨t, ⟨B, jB⟩, P.length + 1⟩, ?_, ?_⟩
          · rw [SsTableIterator.create_and_seek_to_key, SsTableIterator.initialize_key_block,
              hfbi, hread, Option.some_bind, hseekB]
            rw [if_neg (by rw [hinvalid]; simp), if_pos hguard, if_neg hnum]
            rfl
          · rw [SsTableIterator.current]
            have hv2 : SsTableIterator.is_valid ⟨t, ⟨B, jB⟩, P.length + 1⟩ = false := hinvalid
            rw [if_neg (by rw [hv2]; simp)]
            rw [hTE, ← List.append_assoc, List.find?_append, hfindPB, Option.none_or, hRc]
            simp

/-! ## Built tables are well-formed -/

theorem allEntries_new (bs : Nat) : (SsTableBuilder.new bs).allEntries = [] := rfl

/-- A table built from a strictly increasing run of non-empty keys (at
least one entry, fewer than `2 ^ 64`) satisfies the read-side
well-formedness predicate, and stores exactly the added entries. -/
theorem buildTable_wf (bs id : Nat) (es : List ((Key × Value) × Nat))
    (hsort : strictSorted (es.map fun e => e.1.1) = true)
    (hne : ∀ e ∈ es, e.1.1 ≠ [])
    (hnil : es ≠ [])
    (hbound : es.length < usizeBound) :
    ∀ t, buildTable bs id es = some t →
      t.wf = true ∧ t.tableEntries = es.map fun e => e.1 := by
  intro t ht
  rw [buildTable] at ht
  cases hadd : (SsTableBuilder.new bs).addAll es with
  | none => rw [hadd] at ht; exact Option.noConfusion ht
  | some s' =>
    rw [hadd, Option.some_bind] at ht
    have hA := addAll_invA es (SsTableBuilder.new bs) (invA_new bs) s' hadd
    have hB := addAll_invB es (SsTableBuilder.new bs) (invA_new bs) (invB_new bs)
      (fun e he => hne e he) s' hadd
    have hall : s'.allEntries = es.map fun e => e.1 := by
      have := addAll_allEntries es (SsTableBuilder.new bs) s' hadd
      rwa [allEntries_new, List.nil_append] at this
    have hopen : s'.builder.entries ≠ [] := addAll_open_ne es (SsTableBuilder.new bs) s' hadd hnil
    obtain ⟨t', ht', hid, hblocks, hmeta, hoff, hts, hbloom, hfk, hlk⟩ := build_spec s' id
    rw [ht'] at ht
    injection ht with ht
    subst ht
    have htE : t'.tableEntries = es.map fun e => e.1 := by
      rw [SsTable.tableEntries, hblocks]
      rw [SsTableBuilder.allEntries] at hall
      simp only [List.map_append, List.map_cons, List.map_nil, List.flatten_append]
      simpa [BlockBuilder.build] using hall
    refine ⟨?_, htE⟩
    rw [SsTable.wf]
    have hnonempty : ∀ b ∈ t'.blocks, b.entries ≠ [] := by
      intro b hb
      rw [hblocks] at hb
      simp only [List.mem_append, List.mem_singleton] at hb
      rcases hb with hb | hb
      · exact hA.nonempty b hb
      · subst hb
        simpa [BlockBuilder.build] using hopen
    have hblocksne : t'.blocks ≠ [] := by
      rw [hblocks]
      simp
    have hlencnt : t'.blocks.length ≤ es.length := by
      have h1 := blocks_length_le_entries t'.blocks hnonempty
      have h2 : ((t'.blocks.map Block.entries).flatten).length = es.length := by
        rw [← SsTable.tableEntries, htE, List.length_map]
      omega
    simp only [Bool.and_eq_true, decide_eq_true_eq, List.all_eq_true]
    refine ⟨⟨⟨⟨⟨⟨hblocksne, ?_⟩, ?_⟩, ?_⟩, ?_⟩, ?_⟩, ?_⟩
    · rw [hmeta, hblocks]
      simp [hA.len_eq]
    · rw [hmeta, hblocks]
      simp only [List.map_append, List.map_cons, List.map_nil]
      rw [hB.metaFirst]
      simp [BlockBuilder.build, hB.fk]
    · rw [hmeta, hblocks]
      simp only [List.map_append, List.map_cons, List.map_nil]
      rw [hB.metaLast]
      simp [BlockBuilder.build, hB.lk]
    · intro b hb
      exact hnonempty b hb
    · rw [strictSorted_iff_pairwise, htE]
      rw [strictSorted_iff_pairwise] at hsort
      simpa [Function.comp] using hsort
    · omega

theorem xxh32_lt (seed : Nat) (bytes : List Nat) : xxh32 seed bytes < 2 ^ 32 := by
  rw [xxh32]
  have h : ∀ (l : List Nat) (acc : Nat), acc < 2 ^ 32 →
      l.foldl (fun acc b => (acc * 31 + b % 256 + 1) % 2 ^ 32) acc < 2 ^ 32 := by
    intro l
    induction l with
    | nil => intro acc hacc; exact hacc
    | cons b rest ih =>
      intro acc _
      exact ih _ (Nat.mod_lt _ (by norm_num))
  exact h bytes _ (Nat.mod_lt _ (by norm_num))

theorem heads_pairwise (L : List Block) (hne : ∀ b ∈ L, b.entries ≠ [])
    (hs : List.Pairwise (· < ·) (((L.map Block.entries).flatten).map Prod.fst)) :
    List.Pairwise (· < ·) (L.map fun b => headKey b.entries) := by
  rw [List.map_flatten, List.map_map] at hs
  have hcross := (List.pairwise_flatten.mp hs).2
  rw [List.pairwise_map] at hcross
  rw [List.pairwise_map]
  refine hcross.imp_of_mem ?_
  intro a b ha hb hr
  have hane := hne a ha
  have hbne := hne b hb
  have hha : headKey a.entries ∈ a.entries.map Prod.fst := by
    rw [headKey, List.head?_eq_head hane]
    exact List.mem_map_of_mem Prod.fst (List.head_mem hane)
  have hhb : headKey b.entries ∈ b.entries.map Prod.fst := by
    rw [headKey, List.head?_eq_head hbne]
    exact List.mem_map_of_mem Prod.fst (List.head_mem hbne)
  exact hr _ (by simpa using hha) _ (by simpa using hhb)

/-! ## Claim C1: build() with zero prior add() calls -/

/-- C1 counterexample: with zero prior `add` calls, `build` does not
fail; it returns a table with one block and zero entries (the claimed
EmptyTable error does not occur). -/
theorem c1_zero_adds_counterexample :
    ((SsTableBuilder.new 16).build 0).map
      (fun t => (t.block_meta.length, t.tableEntries)) = some (1, []) := by
  rfl

/-- C1 (amended): for every block size and id, `build()` invoked with
zero prior `add()` calls succeeds — there is no EmptyTable check — and
the result is a table whose BlockMeta sequence has exactly one entry and
whose single block holds zero entries. -/
theorem c1_empty_build_returns_table (bs id : Nat) :
    ∃ t, (SsTableBuilder.new bs).build id = some t ∧
      t.block_meta.length = 1 ∧ t.blocks = [⟨[]⟩] ∧ t.tableEntries = [] := by
  obtain ⟨t, ht, _, hblocks, hmeta, _⟩ := build_spec (SsTableBuilder.new bs) id
  refine ⟨t, ht, ?_, ?_, ?_⟩
  · rw [hmeta]
    rfl
  · rw [hblocks]
    rfl
  · rw [SsTable.tableEntries, hblocks]
    rfl

/-! ## Claim C5: the finalize-block steps -/

/-- C5: `finish_block` swaps in a fresh empty block builder, appends a
BlockMeta entry whose offset is the data length before the append
together with the tracked first/last keys, computes the fixed-width
32-bit checksum over the encoded block bytes, and appends the encoded
block bytes followed by the 4-byte checksum to the data buffer. -/
theorem c5_finish_block_steps (s : SsTableBuilder) :
    s.finish_block.builder = BlockBuilder.new s.block_size ∧
    s.finish_block.meta = s.meta ++ [⟨s.data.length, s.first_key, s.last_key⟩] ∧
    s.finish_block.data = s.data ++ (BlockBuilder.build s.builder).encode ++
      putU32 (xxh32 0 (BlockBuilder.build s.builder).encode) ∧
    (putU32 (xxh32 0 (BlockBuilder.build s.builder).encode)).length = 4 ∧
    xxh32 0 (BlockBuilder.build s.builder).encode < 2 ^ 32 ∧
    s.finish_block.blocks = s.blocks ++ [BlockBuilder.build s.builder] ∧
    s.finish_block.estimated_size =
      s.estimated_size + (BlockBuilder.build s.builder).encode.length + 4 := by
  refine ⟨rfl, rfl, rfl, putU32_length _, xxh32_lt _ _, rfl, ?_⟩
  rw [SsTableBuilder.estimated_size, SsTableBuilder.estimated_size,
    SsTableBuilder.finish_block_spec]
  simp [putU32_length]
  omega

/-! ## Claim C9: finalize-and-retry-once with a loud failure -/

/-- C9: when the open block rejects an entry, `add` finalizes the block
and retries exactly once into a fresh block: if the entry fits an empty
block the retried insertion succeeds with that single entry in the fresh
block; otherwise the retry assertion fires (a panic, `none`) — the entry
is never silently dropped.  Under the precondition that the entry fits
an empty block, `add` never panics. -/
theorem c9_retry_once_loud_failure :
    (∀ (s : SsTableBuilder) (k : Key) (v : Value) (ts : Nat),
      (s.builder.add k v).1 = false →
      (entrySize k v ≤ s.block_size →
        s.add k v ts = some
          { s with
            builder := ⟨s.block_size, [(k, v)]⟩
            first_key := k
            last_key := k
            key_hashes := s.key_hashes ++ [keyHash k]
            max_ts := max s.max_ts ts
            meta := s.meta ++
              [⟨s.data.length, if s.first_key.isEmpty then k else s.first_key, s.last_key⟩]
            data := s.data ++ (BlockBuilder.build s.builder).encode ++
              putU32 (xxh32 0 (BlockBuilder.build s.builder).encode)
            blocks := s.blocks ++ [BlockBuilder.build s.builder] }) ∧
      (¬ entrySize k v ≤ s.block_size → s.add k v ts = none)) ∧
    (∀ (s : SsTableBuilder) (k : Key) (v : Value) (ts : Nat),
      entrySize k v ≤ s.block_size → (s.add k v ts).isSome = true) := by
  constructor
  · intro s k v ts hrej
    have h2 : ¬ s.builder.currentSize + entrySize k v ≤ s.builder.block_size := by
      intro hcon
      rw [BlockBuilder.add, if_pos hcon] at hrej
      exact Bool.noConfusion hrej
    exact ⟨fun h3 => s.add_of_reject_fits k v ts h2 h3,
           fun h3 => s.add_of_reject_reject k v ts h2 h3⟩
  · exact add_isSome

/-- C9 witness: a concrete entry that fits an empty block is accepted. -/
theorem c9_witness :
    entrySize [1] [7] ≤ (SsTableBuilder.new 8).block_size ∧
    ((SsTableBuilder.new 8).add [1] [7] 0).isSome = true :=
  ⟨by decide, c9_retry_once_loud_failure.2 (SsTableBuilder.new 8) [1] [7] 0 (by decide)⟩

/-! ## Claim C10: hash/watermark bookkeeping and the built bloom filter -/

/-- C10: every (non-panicking) `add` appends the key's 32-bit hash to
the hash list and raises the watermark to the max of its old value and
the clock reading (so the watermark is non-decreasing); across a full
run from `new`, the hash list is exactly the hashes of all added keys in
order (including keys whose insertion finalized a block) and the
watermark is the max of all readings; `build` constructs the bloom
filter over exactly that hash list and carries the watermark over. -/
theorem c10_hash_watermark_bloom :
    (∀ (s : SsTableBuilder) (k : Key) (v : Value) (ts : Nat) (s' : SsTableBuilder),
      s.add k v ts = some s' →
      s'.key_hashes = s.key_hashes ++ [keyHash k] ∧
      s'.max_ts = max s.max_ts ts ∧ s.max_ts ≤ s'.max_ts) ∧
    (∀ (bs : Nat) (es : List ((Key × Value) × Nat)) (s' : SsTableBuilder),
      (SsTableBuilder.new bs).addAll es = some s' →
      s'.key_hashes = es.map (fun e => keyHash e.1.1) ∧
      s'.max_ts = (es.map fun e => e.2).foldl max 0) ∧
    (∀ (s : SsTableBuilder) (id : Nat), ∃ t, s.build id = some t ∧
      t.bloom = some (Bloom.build_from_key_hashes s.key_hashes
        (Bloom.bloom_bits_per_key s.key_hashes.length (1 / 100))) ∧
      t.max_ts = s.max_ts) := by
  refine ⟨?_, ?_, ?_⟩
  · intro s k v ts s' h
    obtain ⟨hh, ht⟩ := add_hashes_ts s k v ts s' h
    exact ⟨hh, ht, by rw [ht]; exact Nat.le_max_left _ _⟩
  · intro bs es s' h
    obtain ⟨hh, ht⟩ := addAll_hashes_ts es (SsTableBuilder.new bs) s' h
    exact ⟨by simpa using hh, by simpa using ht⟩
  · intro s id
    obtain ⟨t, ht, _, _, _, _, hts, hbloom, _, _⟩ := build_spec s id
    exact ⟨t, ht, hbloom, hts⟩

/-- C10 witness: the empty run records no hashes and watermark 0. -/
theorem c10_witness :
    (SsTableBuilder.new 8).addAll [] = some (SsTableBuilder.new 8) ∧
    (SsTableBuilder.new 8).key_hashes = ([] : List ((Key × Value) × Nat)).map
      (fun e => keyHash e.1.1) ∧
    (SsTableBuilder.new 8).max_ts =
      (([] : List ((Key × Value) × Nat)).map fun e => e.2).foldl max 0 :=
  ⟨rfl, c10_hash_watermark_bloom.2.1 8 [] (SsTableBuilder.new 8) rfl⟩

/-! ## Claim C7: estimated_size -/

/-- C7: `estimated_size` equals the summed byte length of all finalized
blocks plus their 4-byte checksums (so it excludes the still-open
block); it never decreases across an `add`; an `add` accepted directly
by the open block leaves it unchanged, and an `add` that finalizes a
block grows it by exactly that block's encoding plus its checksum. -/
theorem c7_estimated_size_finalized_only :
    (∀ (bs : Nat) (es : List ((Key × Value) × Nat)) (s' : SsTableBuilder),
      (SsTableBuilder.new bs).addAll es = some s' →
      s'.estimated_size = ((s'.blocks.map fun b => b.encode.length + 4)).sum) ∧
    (∀ (s : SsTableBuilder) (k : Key) (v : Value) (ts : Nat) (s' : SsTableBuilder),
      s.add k v ts = some s' → s.estimated_size ≤ s'.estimated_size) ∧
    (∀ (s : SsTableBuilder) (k : Key) (v : Value) (ts : Nat),
      (s.builder.add k v).1 = true →
      (s.add k v ts).map SsTableBuilder.estimated_size = some s.estimated_size) ∧
    (∀ (s : SsTableBuilder) (k : Key) (v : Value) (ts : Nat) (s' : SsTableBuilder),
      (s.builder.add k v).1 = false → s.add k v ts = some s' →
      s'.estimated_size =
        s.estimated_size + (BlockBuilder.build s.builder).encode.length + 4) := by
  have hcond : ∀ (s : SsTableBuilder) (k : Key) (v : Value),
      (s.builder.add k v).1 = true ↔
      s.builder.currentSize + entrySize k v ≤ s.builder.block_size := by
    intro s k v
    by_cases hc : s.builder.currentSize + entrySize k v ≤ s.builder.block_size <;>
      simp [BlockBuilder.add, hc]
  refine ⟨?_, ?_, ?_, ?_⟩
  · intro bs es s' h
    have hA := addAll_invA es (SsTableBuilder.new bs) (invA_new bs) s' h
    rw [SsTableBuilder.estimated_size, hA.datashape, List.length_flatten, List.map_map]
    congr 1
    apply List.map_congr_left
    intro b _
    simp [putU32_length]
  · intro s k v ts s' h
    by_cases h2 : s.builder.currentSize + entrySize k v ≤ s.builder.block_size
    · rw [s.add_of_fits k v ts h2] at h
      injection h with h
      subst h
      exact Nat.le_refl _
    · by_cases h3 : entrySize k v ≤ s.block_size
      · rw [s.add_of_reject_fits k v ts h2 h3] at h
        injection h with h
        subst h
        simp [SsTableBuilder.estimated_size]
      · rw [s.add_of_reject_reject k v ts h2 h3] at h
        exact Option.noConfusion h
  · intro s k v ts hacc
    rw [s.add_of_fits k v ts ((hcond s k v).mp hacc)]
    rfl
  · intro s k v ts s' hrej h
    have h2 : ¬ s.builder.currentSize + entrySize k v ≤ s.builder.block_size := by
      intro hcon
      rw [(hcond s k v).mpr hcon] at hrej
      exact Bool.noConfusion hrej
    by_cases h3 : entrySize k v ≤ s.block_size
    · rw [s.add_of_reject_fits k v ts h2 h3] at h
      injection h with h
      subst h
      simp [SsTableBuilder.estimated_size, putU32_length]
      omega
    · rw [s.add_of_reject_reject k v ts h2 h3] at h
      exact Option.noConfusion h

/-- C7 witness: a direct insertion leaves `estimated_size` unchanged. -/
theorem c7_witness :
    ((SsTableBuilder.new 8).builder.add [1] [7]).1 = true ∧
    ((SsTableBuilder.new 8).add [1] [7] 0).map SsTableBuilder.estimated_size =
      some (SsTableBuilder.new 8).estimated_size :=
  ⟨by decide, c7_estimated_size_finalized_only.2.2.1 (SsTableBuilder.new 8) [1] [7] 0 (by decide)⟩

/-! ## Claim C4: block-index overflow behaviour -/

/-- A one-block table used to exhibit the unguarded increment in
`next`. -/
def c4Table : SsTable :=
  { id := 0
    file := []
    blocks := [⟨[([1], [7])]⟩]
    block_meta := [⟨0, [1], [1]⟩]
    block_meta_offset := 0
    bloom := none
    first_key := [1]
    last_key := [1]
    max_ts := 0 }

/-- A table with `2 ^ 64` blocks, used to drive `find_block_idx` to the
maximal `usize` value and exercise the seek path's `checked_add`
guard. -/
def c4HugeTable : SsTable :=
  { id := 0
    file := []
    blocks := List.replicate usizeBound ⟨[([0], [])]⟩
    block_meta := List.replicate usizeBound ⟨0, [0], [0]⟩
    block_meta_offset := 0
    bloom := none
    first_key := [0]
    last_key := [0]
    max_ts := 0 }

/-- C4 counterexample: calling `next` on an iterator whose exhausted
cursor sits at block index `2 ^ 64 − 1` wraps the index to 0 and
repositions the iterator on block 0's first entry (`is_valid` true),
instead of degrading to the exhausted state. -/
theorem c4_next_wraps_counterexample :
    ((SsTableIterator.mk c4Table ⟨⟨[([1], [7])]⟩, 1⟩ (usizeBound - 1)).next).map
      (fun it => (it.blk_idx, it.is_valid)) = some (0, true) := by
  decide

/-- C4 (amended): overflow handling differs between the two operations.
In the seek path (`initialize_key_block`) the increment is guarded by
`checked_add`, but overflow surfaces as an error (`none`), not as an
exhausted iterator: on a table of `2 ^ 64` blocks whose every first key
is `≤` the probe key, the seek fails.  In `next` the increment is not
guarded at all: it wraps modulo `2 ^ 64`, so an iterator whose exhausted
cursor sits at block index `2 ^ 64 − 1` is repositioned to block 0
rather than becoming exhausted. -/
theorem c4_overflow_amended :
    SsTableIterator.initialize_key_block c4HugeTable [1] = none ∧
    ∀ (s : SsTableIterator) (b : Block),
      s.blk_idx = usizeBound - 1 →
      s.blk_iter.next.is_valid = false →
      0 < s.table.num_of_blocks →
      s.table.read_block_cached 0 = some b →
      s.next = some ⟨s.table, BlockIterator.create_and_seek_to_first b, 0⟩ := by
  constructor
  · have husz : 0 < usizeBound := by decide
    have hmeta : c4HugeTable.block_meta =
        List.replicate usizeBound ⟨0, [0], [0]⟩ := rfl
    have hblocks : c4HugeTable.blocks =
        List.replicate usizeBound ⟨[([0], [])]⟩ := rfl
    have hfbi : c4HugeTable.find_block_idx [1] = usizeBound - 1 := by
      rw [SsTable.find_block_idx, hmeta, List.takeWhile_replicate, if_pos (by decide),
        List.length_replicate]
    have hread : c4HugeTable.read_block_cached (usizeBound - 1) =
        some ⟨[([0], [])]⟩ := by
      rw [SsTable.read_block_cached, hblocks, List.getElem?_replicate, if_pos (by omega)]
    have hseek : BlockIterator.create_and_seek_to_key ⟨[([0], [])]⟩ [1] =
        ⟨⟨[([0], [])]⟩, 1⟩ := by decide
    have hinv : (BlockIterator.mk ⟨[([0], [])]⟩ 1).is_valid = false := by decide
    rw [SsTableIterator.initialize_key_block, hfbi, hread, Option.some_bind, hseek]
    rw [if_neg (by rw [hinv]; exact Bool.false_ne_true), if_neg (by omega)]
  · intro s b hidx hnv hnum hread
    have husz : 0 < usizeBound := by decide
    have hmod : (s.blk_idx + 1) % usizeBound = 0 := by
      rw [hidx, Nat.sub_add_cancel husz, Nat.mod_self]
    rw [SsTableIterator.next]
    rw [if_neg (by rw [hnv]; exact Bool.false_ne_true), hmod, if_pos hnum, hread]
    rfl

/-- C4 witness: the `next` clause of the amended claim, applied to the
concrete wrapped-around iterator state. -/
theorem c4_witness :
    ((SsTableIterator.mk c4Table ⟨⟨[([1], [7])]⟩, 1⟩ (usizeBound - 1)).blk_idx =
        usizeBound - 1 ∧
      (SsTableIterator.mk c4Table ⟨⟨[([1], [7])]⟩, 1⟩
        (usizeBound - 1)).blk_iter.next.is_valid = false ∧
      0 < c4Table.num_of_blocks ∧
      c4Table.read_block_cached 0 = some ⟨[([1], [7])]⟩) ∧
    (SsTableIterator.mk c4Table ⟨⟨[([1], [7])]⟩, 1⟩ (usizeBound - 1)).next =
      some ⟨c4Table, BlockIterator.create_and_seek_to_first ⟨[([1], [7])]⟩, 0⟩ :=
  ⟨⟨rfl, by decide, by decide, by decide⟩,
    c4_overflow_amended.2 (SsTableIterator.mk c4Table ⟨⟨[([1], [7])]⟩, 1⟩ (usizeBound - 1))
      ⟨[([1], [7])]⟩ rfl (by decide) (by decide) (by decide)⟩

/-! ## Claim C2: build/iterate round trip -/

/-- C2 counterexample: for block size 0 the (strictly increasing)
one-entry sequence `[([0], [])]` cannot be built at all — the entry does
not fit an empty block, so the retry assertion inside `add` fires (a
panic) and no table results, so no iteration can return the sequence. -/
theorem c2_tiny_block_counterexample :
    strictSorted (([(([0], []), 0)] : List ((Key × Value) × Nat)).map fun e => e.1.1) =
      true ∧
    (SsTableBuilder.new 0).addAll ([(([0], []), 0)] : List ((Key × Value) × Nat)) =
      none ∧
    buildTable 0 0 ([(([0], []), 0)] : List ((Key × Value) × Nat)) = none := by
  refine ⟨by decide, by decide, ?_⟩
  rw [buildTable]
  rw [show (SsTableBuilder.new 0).addAll ([(([0], []), 0)] : List ((Key × Value) × Nat)) =
    none from by decide]
  rfl

/-- C2 (amended): for every strictly increasing key sequence whose every
entry fits in an empty block (and fewer than `2 ^ 64` entries), feeding
the sequence to the builder, building, and iterating forward from
seek-to-first yields exactly the original key/value sequence in
order. -/
theorem c2_round_trip (bs id : Nat) (es : List ((Key × Value) × Nat))
    (hsort : strictSorted (es.map fun e => e.1.1) = true)
    (hfit : ∀ e ∈ es, entrySize e.1.1 e.1.2 ≤ bs)
    (hbound : es.length < usizeBound) :
    ∃ t it, buildTable bs id es = some t ∧
      SsTableIterator.create_and_seek_to_first t = some it ∧
      it.collect (es.length + 1) = es.map fun e => e.1 := by
  cases hadd : (SsTableBuilder.new bs).addAll es with
  | none =>
    have hs := addAll_isSome es (SsTableBuilder.new bs) (fun e he => hfit e he)
    rw [hadd] at hs
    exact absurd hs (by simp)
  | some s' =>
    have hA := addAll_invA es (SsTableBuilder.new bs) (invA_new bs) s' hadd
    have hall : s'.allEntries = es.map fun e => e.1 := by
      have := addAll_allEntries es (SsTableBuilder.new bs) s' hadd
      rwa [allEntries_new, List.nil_append] at this
    obtain ⟨t, ht, _, hblocks, hmeta, _, _, _, _, _⟩ := build_spec s' id
    have hbt : buildTable bs id es = some t := by
      rw [buildTable, hadd, Option.some_bind, ht]
    have htE : (t.blocks.map Block.entries).flatten = es.map fun e => e.1 := by
      rw [hblocks]
      rw [SsTableBuilder.allEntries] at hall
      simp only [List.map_append, List.map_cons, List.map_nil, List.flatten_append]
      simpa [BlockBuilder.build] using hall
    have hlen : t.block_meta.length = t.blocks.length := by
      rw [hmeta, hblocks]
      simp [hA.len_eq]
    have hsum : ((t.blocks.map fun b => b.entries.length)).sum = es.length := by
      have h1 := congrArg List.length htE
      rw [List.length_flatten, List.map_map, List.length_map] at h1
      exact h1
    cases htb : t.blocks with
    | nil =>
      exfalso
      rw [hblocks] at htb
      exact absurd htb (by simp)
    | cons b0 post =>
      have hpost : ∀ b ∈ post, b.entries ≠ [] := by
        by_cases hes : es = []
        · subst hes
          have hs' : s' = SsTableBuilder.new bs := by
            rw [SsTableBuilder.addAll] at hadd
            injection hadd with hadd
            exact hadd.symm
          subst hs'
          rw [hblocks] at htb
          have h0 : (SsTableBuilder.new bs).blocks = [] := rfl
          rw [h0, List.nil_append] at htb
          injection htb with _ h2
          intro b hb
          rw [← h2] at hb
          exact absurd hb (by simp)
        · have hopen := addAll_open_ne es (SsTableBuilder.new bs) s' hadd hes
          intro b hb
          have hbmem : b ∈ t.blocks := by rw [htb]; simp [hb]
          rw [hblocks] at hbmem
          simp only [List.mem_append, List.mem_singleton] at hbmem
          rcases hbmem with hbmem | hbmem
          · exact hA.nonempty b hbmem
          · subst hbmem
            simpa [BlockBuilder.build] using hopen
      have hstart : 0 < b0.entries.length ∨ post = [] := by
        cases hsb : s'.blocks with
        | nil =>
          right
          rw [hblocks, hsb, List.nil_append] at htb
          injection htb with _ h2
          exact h2.symm
        | cons c cs =>
          left
          rw [hblocks, hsb, List.cons_append] at htb
          injection htb with h1 _
          have hcne : c.entries ≠ [] := hA.nonempty c (by rw [hsb]; simp)
          rw [← h1]
          exact List.length_pos.mpr hcne
      have hbound' : t.blocks.length < usizeBound := by
        by_cases hes : es = []
        · subst hes
          have hs' : s' = SsTableBuilder.new bs := by
            rw [SsTableBuilder.addAll] at hadd
            injection hadd with hadd
            exact hadd.symm
          subst hs'
          rw [hblocks]
          have h0 : (SsTableBuilder.new bs).blocks = [] := rfl
          rw [h0, List.nil_append]
          simp only [List.length_cons, List.length_nil]
          decide
        · have hopen := addAll_open_ne es (SsTableBuilder.new bs) s' hadd hes
          have hnonempty : ∀ b ∈ t.blocks, b.entries ≠ [] := by
            intro b hb
            rw [hblocks] at hb
            simp only [List.mem_append, List.mem_singleton] at hb
            rcases hb with hb | hb
            · exact hA.nonempty b hb
            · subst hb
              simpa [BlockBuilder.build] using hopen
          have h1 := blocks_length_le_entries t.blocks hnonempty
          have h2 := congrArg List.length htE
          rw [List.length_map] at h2
          omega
      have hread0 : t.read_block_cached 0 = some b0 := by
        rw [SsTable.read_block_cached, htb]
        simp
      have hit : SsTableIterator.create_and_seek_to_first t =
          some ⟨t, ⟨b0, 0⟩, 0⟩ := by
        rw [SsTableIterator.create_and_seek_to_first,
          SsTableIterator.initialize_first_block, hread0]
        rfl
      have hfuel : b0.entries.length - 0 +
          ((post.map fun b => b.entries.length)).sum < es.length + 1 + 1 := by
        rw [htb] at hsum
        simp only [List.map_cons, List.sum_cons] at hsum
        omega
      have hcoll := collect_spec (es.length + 1) t [] post b0 0
        (by rw [htb]; rfl) hlen hbound' hpost hstart hfuel
      simp only [List.length_nil] at hcoll
      refine ⟨t, ⟨t, ⟨b0, 0⟩, 0⟩, hbt, hit, ?_⟩
      rw [hcoll, List.drop_zero, ← List.flatten_cons, ← List.map_cons, ← htb, htE]

/-- C2 witness: a three-entry run at block size 8, which splits into
three blocks, round-trips exactly. -/
theorem c2_witness :
    strictSorted (([(([1], [7, 7]), 0), (([2], [8, 8]), 0),
        (([3], [9, 9]), 0)].map fun e => e.1.1)) = true ∧
    (∀ e ∈ [(([1], [7, 7]), 0), (([2], [8, 8]), 0), (([3], [9, 9]), 0)],
      entrySize e.1.1 e.1.2 ≤ 8) ∧
    ([(([1], [7, 7]), 0), (([2], [8, 8]), 0), (([3], [9, 9]), 0)] :
      List ((Key × Value) × Nat)).length < usizeBound ∧
    ∃ t it, buildTable 8 0 [(([1], [7, 7]), 0), (([2], [8, 8]), 0),
        (([3], [9, 9]), 0)] = some t ∧
      SsTableIterator.create_and_seek_to_first t = some it ∧
      it.collect ([(([1], [7, 7]), 0), (([2], [8, 8]), 0),
        (([3], [9, 9]), 0)].length + 1) =
        [(([1], [7, 7]), 0), (([2], [8, 8]), 0), (([3], [9, 9]), 0)].map fun e => e.1 :=
  ⟨by decide, by decide, by decide,
    c2_round_trip 8 0 [(([1], [7, 7]), 0), (([2], [8, 8]), 0), (([3], [9, 9]), 0)]
      (by decide) (by decide) (by decide)⟩

/-! ## Claim C3: seek_to_key positions on the first entry ≥ key -/

/-- C3: on every well-formed table (as produced by the builder:
non-empty blocks, faithful BlockMeta columns, strictly increasing keys),
seeking to a key positions the iterator on the first entry of the whole
table whose key is `≥` the search key — in particular a key falling in
the gap between two blocks lands on the next block's first entry — and
seeking past the table's last key leaves the iterator exhausted. -/
theorem c3_seek_to_key_first_geq (t : SsTable) (key : Key) (hwf : t.wf = true) :
    ∃ it, SsTableIterator.create_and_seek_to_key t key = some it ∧
      it.current = t.tableEntries.find? (fun e => decide (key ≤ e.1)) ∧
      (t.tableEntries.find? (fun e => decide (key ≤ e.1)) = none →
        it.is_valid = false) := by
  obtain ⟨it, h1, h2⟩ := seek_correct t key hwf
  refine ⟨it, h1, h2, ?_⟩
  intro hnone
  rw [hnone] at h2
  by_contra hv
  have hv' : it.is_valid = true := by simpa using hv
  rw [SsTableIterator.current, if_pos hv'] at h2
  exact Option.noConfusion h2

/-- C3 witness: a concrete well-formed two-block table; the key `[1, 5]`
falls strictly between block 0's last key `[1]` and block 1's first key
`[2]`, and the theorem positions the iterator accordingly. -/
theorem c3_witness :
    (SsTable.mk 0 [] [⟨[([1], [7])]⟩, ⟨[([2], [8])]⟩]
      [⟨0, [1], [1]⟩, ⟨9, [2], [2]⟩] 0 none [1] [2] 0).wf = true ∧
    ∃ it, SsTableIterator.create_and_seek_to_key
        (SsTable.mk 0 [] [⟨[([1], [7])]⟩, ⟨[([2], [8])]⟩]
          [⟨0, [1], [1]⟩, ⟨9, [2], [2]⟩] 0 none [1] [2] 0) [1, 5] = some it ∧
      it.current = (SsTable.mk 0 [] [⟨[([1], [7])]⟩, ⟨[([2], [8])]⟩]
          [⟨0, [1], [1]⟩, ⟨9, [2], [2]⟩] 0 none [1] [2] 0).tableEntries.find?
        (fun e => decide ([1, 5] ≤ e.1)) ∧
      ((SsTable.mk 0 [] [⟨[([1], [7])]⟩, ⟨[([2], [8])]⟩]
          [⟨0, [1], [1]⟩, ⟨9, [2], [2]⟩] 0 none [1] [2] 0).tableEntries.find?
        (fun e => decide ([1, 5] ≤ e.1)) = none → it.is_valid = false) :=
  ⟨by decide,
    c3_seek_to_key_first_geq
      (SsTable.mk 0 [] [⟨[([1], [7])]⟩, ⟨[([2], [8])]⟩]
        [⟨0, [1], [1]⟩, ⟨9, [2], [2]⟩] 0 none [1] [2] 0) [1, 5] (by decide)⟩

/-! ## Claim C8: BlockMeta columns against the placed entries -/

/-- C8 counterexample: the builder's `first_key.is_empty()` sentinel
conflates "unset" with an actual empty first key.  For the strictly
increasing sequence `[[], [1]]` the recorded BlockMeta first key is
`[1]`, not the empty key actually placed first in the block. -/
theorem c8_empty_key_counterexample :
    strictSorted (([(([], [7]), 0), (([1], [8]), 0)] :
      List ((Key × Value) × Nat)).map fun e => e.1.1) = true ∧
    (buildTable 100 0 ([(([], [7]), 0), (([1], [8]), 0)] :
        List ((Key × Value) × Nat))).map
      (fun t => (t.block_meta.map BlockMeta.first_key, t.tableEntries.map Prod.fst)) =
      some ([[1]], [[], [1]]) ∧
    ([1] : Key) ≠ [] := by
  refine ⟨by decide, ?_, by decide⟩
  rw [buildTable]
  rw [show (SsTableBuilder.new 100).addAll ([(([], [7]), 0), (([1], [8]), 0)] :
    List ((Key × Value) × Nat)) = some (((SsTableBuilder.new 100).addAll
      ([(([], [7]), 0), (([1], [8]), 0)] : List ((Key × Value) × Nat))).get (by decide))
    from by decide]
  rfl

/-- C8 (amended): for every strictly increasing sequence of *non-empty*
keys, each fitting an empty block, the built table's BlockMeta first-key
column strictly increases (so consecutive blocks' ranges are
non-overlapping), each BlockMeta entry's first key is the first entry
actually placed in its block (including entries whose insertion
finalized the previous block) and its last key is the last entry placed
in that block. -/
theorem c8_meta_columns (bs id : Nat) (es : List ((Key × Value) × Nat))
    (hsort : strictSorted (es.map fun e => e.1.1) = true)
    (hne : ∀ e ∈ es, e.1.1 ≠ [])
    (hnil : es ≠ [])
    (hfit : ∀ e ∈ es, entrySize e.1.1 e.1.2 ≤ bs)
    (hbound : es.length < usizeBound) :
    ∃ t, buildTable bs id es = some t ∧
      List.Pairwise (· < ·) (t.block_meta.map BlockMeta.first_key) ∧
      t.block_meta.map BlockMeta.first_key =
        t.blocks.map (fun b => headKey b.entries) ∧
      t.block_meta.map BlockMeta.last_key =
        t.blocks.map (fun b => lastKey b.entries) := by
  cases hadd : (SsTableBuilder.new bs).addAll es with
  | none =>
    have hs := addAll_isSome es (SsTableBuilder.new bs) (fun e he => hfit e he)
    rw [hadd] at hs
    exact absurd hs (by simp)
  | some s' =>
    obtain ⟨t, ht, _, _, _, _, _, _, _, _⟩ := build_spec s' id
    have hbt : buildTable bs id es = some t := by
      rw [buildTable, hadd, Option.some_bind, ht]
    obtain ⟨hwf, htE⟩ := buildTable_wf bs id es hsort hne hnil hbound t hbt
    rw [SsTable.wf] at hwf
    simp only [Bool.and_eq_true, decide_eq_true_eq, List.all_eq_true] at hwf
    obtain ⟨⟨⟨⟨⟨⟨_, _⟩, hmf⟩, hml⟩, hbne⟩, hsorted⟩, _⟩ := hwf
    refine ⟨t, hbt, ?_, hmf, hml⟩
    rw [hmf]
    exact heads_pairwise t.blocks (fun b hb => by simpa using hbne b hb)
      ((strictSorted_iff_pairwise _).mp hsorted)

/-- C8 witness: a two-entry run at block size 7 splits into two blocks
whose meta columns match the placed entries and strictly increase. -/
theorem c8_witness :
    strictSorted (([(([1], [7, 7]), 0), (([2], [8, 8]), 0)] :
      List ((Key × Value) × Nat)).map fun e => e.1.1) = true ∧
    (∀ e ∈ ([(([1], [7, 7]), 0), (([2], [8, 8]), 0)] :
      List ((Key × Value) × Nat)), e.1.1 ≠ []) ∧
    ([(([1], [7, 7]), 0), (([2], [8, 8]), 0)] :
      List ((Key × Value) × Nat)) ≠ [] ∧
    (∀ e ∈ ([(([1], [7, 7]), 0), (([2], [8, 8]), 0)] :
      List ((Key × Value) × Nat)), entrySize e.1.1 e.1.2 ≤ 7) ∧
    ∃ t, buildTable 7 0 ([(([1], [7, 7]), 0), (([2], [8, 8]), 0)] :
        List ((Key × Value) × Nat)) = some t ∧
      List.Pairwise (· < ·) (t.block_meta.map BlockMeta.first_key) ∧
      t.block_meta.map BlockMeta.first_key =
        t.blocks.map (fun b => headKey b.entries) ∧
      t.block_meta.map BlockMeta.last_key =
        t.blocks.map (fun b => lastKey b.entries) :=
  ⟨by decide, by decide, by decide, by decide,
    c8_meta_columns 7 0 [(([1], [7, 7]), 0), (([2], [8, 8]), 0)]
      (by decide) (by decide) (by decide) (by decide) (by decide)⟩

/-! ## Claim C6: the assembled buffer layout and returned table -/

/-- C6: `build` assembles, after the finalized block data: the encoded
BlockMeta sequence, then its starting offset as a fixed-width 32-bit
field, then the encoded bloom filter built over every recorded key hash
at the 1% false-positive target, then the bloom section's starting
offset, then a checksum over the entire assembled buffer; the returned
table carries the given id, the persisted buffer, the BlockMeta
sequence, the bloom filter, min key equal to the first BlockMeta entry's
first key, max key equal to the last BlockMeta entry's last key, and the
accumulated version watermark. -/
theorem c6_build_layout (s : SsTableBuilder) (id : Nat) :
    ∃ t m0 mL,
      s.build id = some t ∧
      (s.finish_block).meta.head? = some m0 ∧
      (s.finish_block).meta.getLast? = some mL ∧
      t.file =
        (s.finish_block).data ++
        BlockMeta.encode_block_meta (s.finish_block).meta ++
        putU32 (s.finish_block).data.length ++
        (Bloom.build_from_key_hashes s.key_hashes
          (Bloom.bloom_bits_per_key s.key_hashes.length (1 / 100))).encode ++
        putU32 ((s.finish_block).data.length +
          (BlockMeta.encode_block_meta (s.finish_block).meta).length + 4) ++
        putU32 (xxh32 0 ((s.finish_block).data ++
          BlockMeta.encode_block_meta (s.finish_block).meta ++
          putU32 (s.finish_block).data.length ++
          (Bloom.build_from_key_hashes s.key_hashes
            (Bloom.bloom_bits_per_key s.key_hashes.length (1 / 100))).encode ++
          putU32 ((s.finish_block).data.length +
            (BlockMeta.encode_block_meta (s.finish_block).meta).length + 4))) ∧
      t.id = id ∧
      t.block_meta = (s.finish_block).meta ∧
      t.block_meta_offset = (s.finish_block).data.length ∧
      t.bloom = some (Bloom.build_from_key_hashes s.key_hashes
        (Bloom.bloom_bits_per_key s.key_hashes.length (1 / 100))) ∧
      t.first_key = m0.first_key ∧
      t.last_key = mL.last_key ∧
      t.max_ts = s.max_ts := by
  obtain ⟨m0, hm0⟩ :
      ∃ m0, (s.meta ++ [(⟨s.data.length, s.first_key, s.last_key⟩ : BlockMeta)]).head? =
        some m0 := by
    cases s.meta <;> exact ⟨_, rfl⟩
  have hml : (s.meta ++ [(⟨s.data.length, s.first_key, s.last_key⟩ : BlockMeta)]).getLast? =
      some ⟨s.data.length, s.first_key, s.last_key⟩ := by
    simp
  have hoff : ((s.finish_block).data ++
      BlockMeta.encode_block_meta (s.finish_block).meta ++
      putU32 (s.finish_block).data.length).length =
      (s.finish_block).data.length +
      (BlockMeta.encode_block_meta (s.finish_block).meta).length + 4 := by
    simp only [List.length_append, putU32_length]
  cases hb : s.build id with
  | none =>
    exfalso
    simp only [SsTableBuilder.build, SsTableBuilder.finish_block_spec, hm0, hml] at hb
    exact Option.noConfusion hb
  | some t =>
    simp only [SsTableBuilder.build, SsTableBuilder.finish_block_spec, hm0, hml,
      Option.some.injEq] at hb
    refine ⟨t, m0, ⟨s.data.length, s.first_key, s.last_key⟩, rfl, ?_, ?_, ?_, ?_, ?_, ?_,
      ?_, ?_, ?_, ?_⟩
    · rw [SsTableBuilder.finish_block_spec]
      exact hm0
    · rw [SsTableBuilder.finish_block_spec]
      exact hml
    · rw [← hb, ← hoff]
      rw [SsTableBuilder.finish_block_spec]
    · rw [← hb]
    · rw [← hb, SsTableBuilder.finish_block_spec]
    · rw [← hb, SsTableBuilder.finish_block_spec]
    · rw [← hb]
    · rw [← hb]
    · rw [← hb]
    · rw [← hb]

end CobblesDB
